import Mathlib

/-!
# Hack assembler (`assembler.cpp`): shallow embedding and verified properties

The C++ program is a two-pass assembler for the Hack instruction set.  It has
three classes: `SymbolTable`, `Parser` (normalisation of the source lines, the
label pass, and the parsing of cleaned lines) and `Code` (the encoder).

Modelling conventions.

* A `std::string` is a `List Char` (`Str`); string literals are written
  `"D+1".data`.
* A `size_t` position returned by `std::string::find` is an `Option Nat`,
  `none` standing for `std::string::npos`; `npos + 1` wraps around to `0`.
* A C++ exception is the `error` case of `Except Exn`.  Only
  `std::invalid_argument` is ever caught by the program (in `parse_a`); every
  other exception ends the run.
* A `std::unordered_map` is an association list with unique keys; `operator[]`
  is `index`, which inserts a value-initialised entry when the key is missing.
* `int` fields are `Int`; `std::stoi` checks the `int` range explicitly, the
  counters `counter` and `next_variable` only ever count lines of the input.
-/

namespace HackAssembler

/-- A `std::string`. -/
abbrev Str := List Char

/-- The two standard exceptions the program can raise. -/
inductive Exn where
  | out_of_range
  | invalid_argument
deriving DecidableEq, Repr

/-! ## `std::string` operations used by the program -/

/-- `s.find(c)`: position of the first occurrence of `c`, `none` for `npos`. -/
def find : Str → Char → Option Nat
  | [], _ => none
  | x :: r, c => if x = c then some 0 else (find r c).map (· + 1)

/-- `pos + 1` on `size_t`, with `npos + 1 = 0`. -/
def succPos : Option Nat → Nat
  | none => 0
  | some i => i + 1

/-- `s.substr(pos, count)`; `count = none` is the default `npos`.  Throws
`std::out_of_range` when `pos > s.size()`. -/
def substr (s : Str) (pos : Nat) (count : Option Nat) : Except Exn Str :=
  if pos > s.length then .error .out_of_range
  else
    match count with
    | none => .ok (s.drop pos)
    | some n => .ok ((s.drop pos).take n)

/-- The characters `substr` returns when it does not throw. -/
def slice (s : Str) (pos : Nat) (count : Option Nat) : Str :=
  match count with
  | none => s.drop pos
  | some n => (s.drop pos).take n

/-- `s.replace(pos, count, count2, ch)`: the `count` characters from `pos` are
replaced by `count2` copies of `ch`.  Throws `std::out_of_range` when
`pos > s.size()`, in particular when `pos` is `npos`. -/
def replace (s : Str) (pos : Option Nat) (count count2 : Nat) (ch : Char) :
    Except Exn Str :=
  match pos with
  | none => .error .out_of_range
  | some p =>
    if p > s.length then .error .out_of_range
    else .ok (s.take p ++ List.replicate count2 ch ++ s.drop (p + count))

/-- `s[0]`; for an empty `std::string` this is the terminating `'\0'`. -/
def at0 (s : Str) : Char := s.headD (Char.ofNat 0)

/-! ## `std::unordered_map` -/

/-- `m.find(k)`: the value stored under `k`, if any. -/
def lookup {V : Type} : List (Str × V) → Str → Option V
  | [], _ => none
  | (a, b) :: r, k => if a = k then some b else lookup r k

/-- `m[k] = v`: insertion or overwrite. -/
def assign {V : Type} : List (Str × V) → Str → V → List (Str × V)
  | [], k, v => [(k, v)]
  | (a, b) :: r, k, v => if a = k then (a, v) :: r else (a, b) :: assign r k v

/-- Reading `m[k]`: returns the stored value, or inserts the value-initialised
`dflt` and returns it.  The second component is the map afterwards. -/
def index {V : Type} (dflt : V) (m : List (Str × V)) (k : Str) : V × List (Str × V) :=
  match lookup m k with
  | some v => (v, m)
  | none => (dflt, assign m k dflt)

/-! ## `struct Instruction` -/

/-- The instruction record.  `value` has no initialiser in the source and is
only written by `parse_a`; it is never read for a `'C'` instruction. -/
structure Instruction where
  type : Char := Char.ofNat 0
  value : Int := 0
  dest : Str := "null".data
  comp : Str := "null".data
  jump : Str := "null".data
deriving DecidableEq, Repr

/-! ## `class Code` -/

/-- The three encoding tables of a `Code` object. -/
structure Code where
  dest_codes : List (Str × Str)
  comp_codes : List (Str × Str)
  jump_codes : List (Str × Str)
deriving DecidableEq, Repr

/-- A freshly constructed `Code` object (the member initialisers). -/
def Code.init : Code where
  dest_codes :=
    [ ("null".data, "000".data), ("M".data, "001".data), ("D".data, "010".data),
      ("MD".data, "011".data), ("A".data, "100".data), ("AM".data, "101".data),
      ("AD".data, "110".data), ("AMD".data, "111".data) ]
  comp_codes :=
    [ ("0".data, "101010".data), ("1".data, "111111".data), ("-1".data, "111010".data),
      ("D".data, "001100".data), ("A".data, "110000".data), ("!D".data, "001101".data),
      ("!A".data, "110001".data), ("-D".data, "001111".data), ("-A".data, "110011".data),
      ("D+1".data, "011111".data), ("A+1".data, "110111".data), ("D-1".data, "001110".data),
      ("A-1".data, "110010".data), ("D+A".data, "000010".data), ("D-A".data, "010011".data),
      ("A-D".data, "000111".data), ("D&A".data, "000000".data), ("D|A".data, "010101".data) ]
  jump_codes :=
    [ ("null".data, "000".data), ("JGT".data, "001".data), ("JEQ".data, "010".data),
      ("JGE".data, "011".data), ("JLT".data, "100".data), ("JNE".data, "101".data),
      ("JLE".data, "110".data), ("JMP".data, "111".data) ]

/-- The character `'1'` or `'0'` for bit `i` of `u`. -/
def bitChar (u i : Nat) : Char := if u / 2 ^ i % 2 = 1 then '1' else '0'

/-- The `n` low bits of `u`, most significant first. -/
def bitsMSB : Nat → Nat → Str
  | 0, _ => []
  | n + 1, u => bitChar u n :: bitsMSB n u

/-- `std::bitset<16>(value).to_string()`: the `int` is converted to
`unsigned long long` (modulo `2^64`), the bitset keeps its 16 low bits and
prints them most significant first. -/
def bitset16_to_string (value : Int) : Str :=
  bitsMSB 16 (value % 2 ^ 64).toNat

/-- `Code::a_code`. -/
def Code.a_code (ins : Instruction) : Str := bitset16_to_string ins.value

/-- `Code::c_code`.  Every table access is `operator[]`, so the tables may grow;
the `Code` object after the call is returned with the word. -/
def Code.c_code (c : Code) (ins : Instruction) : Except Exn (Str × Code) :=
  let binary : Str := "111".data
  let comp := ins.comp
  let r₁ := index [] c.comp_codes comp
  let fixed : Except Exn (Str × Char) :=
    if r₁.1 = [] then
      match replace comp (find comp 'M') 1 1 'A' with
      | .error e => .error e
      | .ok comp' => .ok (comp', '1')
    else .ok (comp, '0')
  match fixed with
  | .error e => .error e
  | .ok (comp, a) =>
    let binary := binary ++ [a]
    let r₂ := index [] r₁.2 comp
    let binary := binary ++ r₂.1
    let r₃ := index [] c.dest_codes ins.dest
    let binary := binary ++ r₃.1
    let r₄ := index [] c.jump_codes ins.jump
    let binary := binary ++ r₄.1
    .ok (binary, { dest_codes := r₃.2, comp_codes := r₂.2, jump_codes := r₄.2 })

/-- `Code::machine_code`. -/
def Code.machine_code (c : Code) (ins : Instruction) : Except Exn (Str × Code) :=
  if ins.type = 'A' then .ok (Code.a_code ins, c) else Code.c_code c ins

/-! ### Vocabulary for the encoder claims -/

/-- What reading `m[k]` returns: the stored value, the empty string on a miss. -/
def entry (m : List (Str × Str)) (k : Str) : Str := (lookup m k).getD []

/-- A `Code` object whose tables answer every read like the fresh tables do. -/
def Code.Pristine (c : Code) : Prop :=
  (∀ k, entry c.dest_codes k = entry Code.init.dest_codes k) ∧
  (∀ k, entry c.comp_codes k = entry Code.init.comp_codes k) ∧
  (∀ k, entry c.jump_codes k = entry Code.init.jump_codes k)

/-- The 8 dest mnemonics. -/
def destMnemonics : List Str := Code.init.dest_codes.map Prod.fst

/-- The 8 jump mnemonics. -/
def jumpMnemonics : List Str := Code.init.jump_codes.map Prod.fst

/-- Writing `b` for every `a` in a mnemonic. -/
def subst (a b : Char) (s : Str) : Str := s.map (fun ch => if ch = a then b else ch)

/-- The 18 A-form comp mnemonics (the keys of the comp table). -/
def compKeys : List Str := Code.init.comp_codes.map Prod.fst

/-- The 28 legal comp mnemonics: the 18 table keys and the M-forms of the 10
keys that mention `A`. -/
def compMnemonics : List Str :=
  compKeys ++ (compKeys.filter (fun k => decide ('A' ∈ k))).map (subst 'A' 'M')

/-- The word the specification assigns to a C-instruction. -/
def cWord (dest comp jump : Str) : Str :=
  "111".data ++ [if 'M' ∈ comp then '1' else '0']
    ++ entry Code.init.comp_codes (subst 'M' 'A' comp)
    ++ entry Code.init.dest_codes dest
    ++ entry Code.init.jump_codes jump

/-- The `a` bit and the comp bits as `c_code` computes them, `f` being what a
read of the comp table returns. -/
def compField (f : Str → Str) (comp : Str) : Except Exn (Char × Str) :=
  if f comp = [] then
    match replace comp (find comp 'M') 1 1 'A' with
    | .error e => .error e
    | .ok comp' => .ok ('1', f comp')
  else .ok ('0', f comp)

deriving instance DecidableEq for Except

/-! ## `std::stoi` -/

/-- `isspace` in the "C" locale. -/
def isspace (c : Char) : Bool :=
  c = ' ' || c = '\t' || c = '\n' || c = Char.ofNat 11 || c = Char.ofNat 12 || c = '\r'

/-- The optional sign `strtol` accepts: whether it is `'-'`, and the rest. -/
def takeSign : Str → Bool × Str
  | [] => (false, [])
  | c :: r => if c = '-' then (true, r) else if c = '+' then (false, r) else (false, c :: r)

/-- Value of a string of decimal digits. -/
def digitsValue (ds : Str) : Nat :=
  ds.foldl (fun acc d => 10 * acc + (d.toNat - 48)) 0

/-- `std::stoi(s)` (base 10): leading white space is skipped, an optional sign
is read, then the longest run of decimal digits.  Throws
`std::invalid_argument` when there is no digit and `std::out_of_range` when the
number does not fit an `int`; characters after the digits are ignored. -/
def stoi (s : Str) : Except Exn Int :=
  let body := takeSign (s.dropWhile isspace)
  let ds := body.2.takeWhile Char.isDigit
  if ds = [] then .error .invalid_argument
  else
    let n : Int := digitsValue ds
    let v : Int := if body.1 then -n else n
    if v < -2 ^ 31 ∨ 2 ^ 31 - 1 < v then .error .out_of_range else .ok v

/-! ## `class SymbolTable` -/

/-- The symbol map and the next free variable address. -/
structure SymbolTable where
  symbols : List (Str × Int)
  next_variable : Int
deriving DecidableEq, Repr

/-- The assignments made by the constructor, in order; `R0`..`R15` come from
the loop with `std::to_string(i)`. -/
def predefined : List (Str × Int) :=
  [("SP".data, 0), ("LCL".data, 1), ("ARG".data, 2), ("THIS".data, 3), ("THAT".data, 4)]
    ++ (List.range 16).map (fun i => ('R' :: (Nat.repr i).data, (i : Int)))
    ++ [("SCREEN".data, 16384), ("KBD".data, 24576)]

/-- `SymbolTable::SymbolTable()`. -/
def SymbolTable.init : SymbolTable where
  symbols := predefined.foldl (fun m p => assign m p.1 p.2) []
  next_variable := 16

/-- `SymbolTable::contains`. -/
def SymbolTable.contains (t : SymbolTable) (symbol : Str) : Bool :=
  (lookup t.symbols symbol).isSome

/-- `SymbolTable::add`. -/
def SymbolTable.add (t : SymbolTable) (symbol : Str) (value : Int) : SymbolTable :=
  { t with symbols := assign t.symbols symbol value }

/-- `SymbolTable::get_value`: reads `symbols[symbol]`, which inserts `0` on a
miss. -/
def SymbolTable.get_value (t : SymbolTable) (symbol : Str) : Int × SymbolTable :=
  let r := index 0 t.symbols symbol
  (r.1, { t with symbols := r.2 })

/-- `SymbolTable::allocate`. -/
def SymbolTable.allocate (t : SymbolTable) (symbol : Str) : Int × SymbolTable :=
  (t.next_variable,
    { symbols := assign t.symbols symbol t.next_variable
      next_variable := t.next_variable + 1 })

/-! ## `class Parser` -/

/-- The members of a `Parser`. -/
structure Parser where
  symbolTable : SymbolTable
  counter : Int
  lines : List Str
  instructions : List Instruction
deriving DecidableEq, Repr

/-- `n - k` on `size_t`, used as a character count.  When the subtraction
wraps around, the result is at least `2^64 - 2`, more than any string holds, so
as a count it acts like `npos`. -/
def subSize (n k : Nat) : Option Nat := if k ≤ n then some (n - k) else none

/-- The body of the `while` loop of `Parser::clean` for one line read by
`std::getline`. -/
def Parser.clean_line (p : Parser) (raw : Str) : Except Exn Parser :=
  if raw.length = 0 then .ok p
  else
    let line := raw.filter (fun ch => ch ≠ ' ')
    if at0 line = '/' then .ok p
    else
      let line := line.takeWhile (fun ch => ch ≠ '/')
      if at0 line = '(' then
        match substr line 1 (subSize line.length 2) with
        | .error e => .error e
        | .ok symbol => .ok { p with symbolTable := p.symbolTable.add symbol p.counter }
      else .ok { p with lines := p.lines ++ [line], counter := p.counter + 1 }

/-- `Parser::clean` on the lines of the file. -/
def Parser.clean (p : Parser) : List Str → Except Exn Parser
  | [] => .ok p
  | raw :: rest =>
    match p.clean_line raw with
    | .error e => .error e
    | .ok p' => Parser.clean p' rest

/-- `Parser::parse_a`, with the symbol table passed explicitly. -/
def Parser.parse_a (t : SymbolTable) (line : Str) : Except Exn (Instruction × SymbolTable) :=
  match substr line 1 none with
  | .error e => .error e
  | .ok A =>
    match stoi A with
    | .ok v => .ok ({ type := 'A', value := v }, t)
    | .error .invalid_argument =>
      if t.contains A then
        .ok ({ type := 'A', value := (t.get_value A).1 }, (t.get_value A).2)
      else
        .ok ({ type := 'A', value := (t.allocate A).1 }, (t.allocate A).2)
    | .error e => .error e

/-- `Parser::parse_c`. -/
def Parser.parse_c (line : Str) : Except Exn Instruction :=
  let dflt : Str := "null".data
  let destR : Except Exn Str :=
    if find line '=' ≠ none then substr line 0 (find line '=') else .ok dflt
  match destR with
  | .error e => .error e
  | .ok dest =>
    let jumpR : Except Exn Str :=
      if find line ';' ≠ none then substr line (succPos (find line ';')) none else .ok dflt
    match jumpR with
    | .error e => .error e
    | .ok jump =>
      let compR : Except Exn Str :=
        if dest ≠ "null".data ∧ jump ≠ "null".data then
          substr line (succPos (find line '=')) (find line ';')
        else if dest ≠ "null".data then
          substr line (succPos (find line '=')) none
        else
          substr line 0 (find line ';')
      match compR with
      | .error e => .error e
      | .ok comp => .ok { type := 'C', dest := dest, comp := comp, jump := jump }

/-- One iteration of the parsing loop of the constructor. -/
def Parser.parse_line (p : Parser) (line : Str) : Except Exn Parser :=
  if at0 line = '@' then
    match Parser.parse_a p.symbolTable line with
    | .error e => .error e
    | .ok (ins, t) => .ok { p with symbolTable := t, instructions := p.instructions ++ [ins] }
  else
    match Parser.parse_c line with
    | .error e => .error e
    | .ok ins => .ok { p with instructions := p.instructions ++ [ins] }

/-- The parsing loop of the constructor over a list of cleaned lines. -/
def Parser.parse_all (p : Parser) : List Str → Except Exn Parser
  | [] => .ok p
  | line :: rest =>
    match p.parse_line line with
    | .error e => .error e
    | .ok p' => Parser.parse_all p' rest

/-- A `Parser` before its constructor body runs. -/
def Parser.fresh (table : SymbolTable) : Parser :=
  { symbolTable := table, counter := 0, lines := [], instructions := [] }

/-- `Parser::Parser(filename, table)`, the file given as its lines. -/
def Parser.new (file : List Str) (table : SymbolTable) : Except Exn Parser :=
  match Parser.clean (Parser.fresh table) file with
  | .error e => .error e
  | .ok p => Parser.parse_all p p.lines

/-- The loop of `main`: every instruction is encoded on the same `Code`. -/
def encode_all (c : Code) : List Instruction → Except Exn (List Str × Code)
  | [] => .ok ([], c)
  | ins :: rest =>
    match c.machine_code ins with
    | .error e => .error e
    | .ok (w, c') =>
      match encode_all c' rest with
      | .error e => .error e
      | .ok (ws, c'') => .ok (w :: ws, c'')

/-- The program: the words written to the `.hack` file for a source file. -/
def assemble (file : List Str) : Except Exn (List Str) :=
  match Parser.new file SymbolTable.init with
  | .error e => .error e
  | .ok p =>
    match encode_all Code.init p.instructions with
    | .error e => .error e
    | .ok (ws, _) => .ok ws


/-- Reading a string of `'0'`/`'1'` as a base-2 numeral, most significant
digit first. -/
def binValue (w : Str) : Nat :=
  w.foldl (fun acc ch => 2 * acc + (if ch = '1' then 1 else 0)) 0

/-! ### Vocabulary for the normaliser claims -/

/-- A raw line after the removal of its spaces and the truncation at its first
`/`: what `Parser::clean` works with after its first two steps. -/
def normalize (raw : Str) : Str :=
  (raw.filter (fun ch => ch ≠ ' ')).takeWhile (fun ch => ch ≠ '/')

/-- A cleaned line in the sense of the specification: non-empty, without white
space, without `/`, and not beginning with `(`. -/
def Cleaned (c : Str) : Prop :=
  c ≠ [] ∧ (∀ ch ∈ c, isspace ch = false) ∧ '/' ∉ c ∧ c.head? ≠ some '('

/-- The relation "`r` is `c` with space characters inserted", at any positions and
in any number. -/
inductive Spaced : Str → Str → Prop where
  | nil : Spaced [] []
  | keep (x : Char) {c r : Str} : Spaced c r → Spaced (x :: c) (x :: r)
  | space {c r : Str} : Spaced c r → Spaced c (' ' :: r)

/-! ### Vocabulary for the symbol claims -/

/-- The text after `@` of a cleaned line that is an A-instruction. -/
def referenced (line : Str) : Option Str :=
  if at0 line = '@' then some (line.drop 1) else none

/-- A variable with respect to the table `st` of the label pass: a name that
`std::stoi` does not convert and that `st` does not contain. -/
def isVariable (st : SymbolTable) (x : Str) : Bool :=
  decide (stoi x = .error .invalid_argument) && !st.contains x

/-- Adds the variable a line refers to, when it is a new one, to the list of
the variables met so far. -/
def noteVariable (st : SymbolTable) (acc : List Str) (line : Str) : List Str :=
  match referenced line with
  | some x => if isVariable st x = true ∧ x ∉ acc then acc ++ [x] else acc
  | none => acc

/-- The distinct variables of `lines`, in the order of their first occurrence,
after those of `acc`. -/
def variablesFrom (st : SymbolTable) (acc : List Str) (lines : List Str) : List Str :=
  lines.foldl (noteVariable st) acc

/-- The distinct variables of `lines`, in the order of their first occurrence. -/
def variablesIn (st : SymbolTable) (lines : List Str) : List Str :=
  variablesFrom st [] lines

/-- Position of the first occurrence of `x` in `l`; the length of `l` when `x`
does not occur. -/
def rank (x : Str) : List Str → Nat
  | [] => 0
  | y :: r => if y = x then 0 else rank x r + 1

/-- The state of the table `t` during parsing, `st` being the table after the
label pass and `acc` the variables met so far: the next address has advanced
by their number, the symbols of `st` are as in `st`, and each variable has the
address given by its rank. -/
def VarInv (st : SymbolTable) (acc : List Str) (t : SymbolTable) : Prop :=
  t.next_variable = st.next_variable + (acc.length : Int) ∧
  ∀ x, lookup t.symbols x =
    if st.contains x = true then lookup st.symbols x
    else if x ∈ acc then some (st.next_variable + (rank x acc : Int))
    else none

/-- The symbol `clean` inserts for a raw line, when it takes the line as a
label declaration. -/
def labelOf (raw : Str) : Option Str :=
  if ¬ raw.length = 0 ∧ ¬ at0 (raw.filter (fun ch => ch ≠ ' ')) = '/'
      ∧ at0 (normalize raw) = '(' then
    some (slice (normalize raw) 1 (subSize (normalize raw).length 2))
  else none

/-! ### Vocabulary for the claims on legal instructions -/

/-- A legal instruction: an A-instruction with a value in `[0, 32767]`, or a
C-instruction whose three fields are table mnemonics. -/
def Legal (ins : Instruction) : Prop :=
  (ins.type = 'A' ∧ 0 ≤ ins.value ∧ ins.value ≤ 32767) ∨
  (ins.type = 'C' ∧ ins.dest ∈ destMnemonics ∧ ins.comp ∈ compMnemonics
    ∧ ins.jump ∈ jumpMnemonics)

/-- The seven bits `a c1..c6` the specification assigns to a comp mnemonic. -/
def compCode (comp : Str) : Str :=
  (if 'M' ∈ comp then '1' else '0') :: entry Code.init.comp_codes (subst 'M' 'A' comp)

/-! ### Vocabulary for the claims on A-instruction texts and labels -/

/-- A non-negative decimal integer in the sense of the specification: a
non-empty string of decimal digits. -/
def isDecimal (text : Str) : Prop := text ≠ [] ∧ ∀ ch ∈ text, ch.isDigit = true

/-- Whether a text, after optional leading white space and an optional sign,
starts with a decimal digit. -/
def numericHead (text : Str) : Bool :=
  match (takeSign (text.dropWhile isspace)).2 with
  | [] => false
  | ch :: _ => ch.isDigit

/-- The characters strictly between the first character of a line and its last
`)`. -/
def betweenParens (line : Str) : Str :=
  (((line.drop 1).reverse.dropWhile (fun ch => ch ≠ ')')).drop 1).reverse

/-! ### Vocabulary for the round-trip claim -/

/-- The inverse of an encoding table: the mnemonic whose bits are `bits`. -/
def inverse (m : List (Str × Str)) (bits : Str) : Option Str :=
  match m.find? (fun e => e.2 = bits) with
  | some e => some e.1
  | none => none

/-- Decoding of a 16-bit word through the inverse tables, as the specification
describes it: a word beginning with `0` is an A-instruction with the value of
the numeral; a word beginning with `111` is a C-instruction whose comp is the
mnemonic of bits 4..9, in its M-form when the `a` bit is set, and whose dest
and jump are the mnemonics of bits 10..12 and 13..15. -/
def decode (w : Str) : Option Instruction :=
  if w.length ≠ 16 then none
  else if w.take 1 = ['0'] then some { type := 'A', value := (binValue w : Int) }
  else if w.take 3 = "111".data then
    match inverse Code.init.comp_codes ((w.drop 4).take 6),
          inverse Code.init.dest_codes ((w.drop 10).take 3),
          inverse Code.init.jump_codes ((w.drop 13).take 3) with
    | some c, some d, some j =>
      some { type := 'C', dest := d, jump := j,
             comp := if (w.drop 3).take 1 = ['1'] then subst 'A' 'M' c else c }
    | _, _, _ => none
  else none

/-- Parsing one cleaned line on a fresh parser, encoding the instruction on a
fresh `Code` object and decoding the word. -/
def roundTrip (line : Str) : Option Instruction :=
  match Parser.parse_line (Parser.fresh SymbolTable.init) line with
  | .error _ => none
  | .ok p =>
    match p.instructions with
    | [ins] =>
      match Code.machine_code Code.init ins with
      | .ok (w, _) => decode w
      | .error _ => none
    | _ => none

/-! # Theorems -/

/-! ## Maps -/

theorem lookup_assign {V : Type} (m : List (Str × V)) (k k' : Str) (v : V) :
    lookup (assign m k v) k' = if k = k' then some v else lookup m k' := by
  induction m with
  | nil => simp [assign, lookup]
  | cons p r ih =>
    obtain ⟨a, b⟩ := p
    by_cases hak : a = k
    · by_cases hk : k = k' <;> simp [assign, lookup, hak, hk]
    · by_cases hk : a = k'
      · subst hk
        have hka : ¬ k = a := fun h => hak h.symm
        simp [assign, lookup, hak, hka]
      · simp [assign, lookup, hak, hk, ih]

theorem index_fst (m : List (Str × Str)) (k : Str) : (index [] m k).1 = entry m k := by
  unfold index entry
  cases lookup m k <;> rfl

theorem entry_index_snd (m : List (Str × Str)) (k k' : Str) :
    entry (index [] m k).2 k' = entry m k' := by
  unfold index entry
  cases h : lookup m k with
  | some v => rfl
  | none =>
    simp only [lookup_assign]
    by_cases hk : k = k'
    · subst hk; simp [h]
    · simp [hk]

/-! ## The encoder -/

theorem c_code_eq (c : Code) (ins : Instruction) :
    Code.c_code c ins =
      match compField (entry c.comp_codes) ins.comp with
      | .error e => .error e
      | .ok (a, bits) =>
        .ok ("111".data ++ [a] ++ bits ++ entry c.dest_codes ins.dest
              ++ entry c.jump_codes ins.jump,
            { dest_codes := (index [] c.dest_codes ins.dest).2
              comp_codes := (index [] (index [] c.comp_codes ins.comp).2
                (if entry c.comp_codes ins.comp = [] then
                  (ins.comp.take ((find ins.comp 'M').getD 0) ++ ['A']
                    ++ ins.comp.drop ((find ins.comp 'M').getD 0 + 1))
                 else ins.comp)).2
              jump_codes := (index [] c.jump_codes ins.jump).2 }) := by
  unfold Code.c_code compField
  simp only [index_fst]
  by_cases h : entry c.comp_codes ins.comp = []
  · simp only [h, if_true]
    cases hf : find ins.comp 'M' with
    | none => simp [replace]
    | some p =>
      by_cases hp : p > ins.comp.length
      · simp [replace, hp]
      · simp [replace, hp, index_fst, entry_index_snd]
  · simp [h, index_fst, entry_index_snd]

theorem pristine_init : Code.init.Pristine := ⟨fun _ => rfl, fun _ => rfl, fun _ => rfl⟩

/-- A successful `c_code` leaves the tables answering as before. -/
theorem c_code_pristine (c c' : Code) (ins : Instruction) (w : Str)
    (hc : c.Pristine) (h : Code.c_code c ins = .ok (w, c')) : c'.Pristine := by
  rw [c_code_eq] at h
  cases hf : compField (entry c.comp_codes) ins.comp with
  | error e => simp [hf] at h
  | ok r =>
    obtain ⟨a, bits⟩ := r
    simp only [hf, Except.ok.injEq, Prod.mk.injEq] at h
    obtain ⟨-, rfl⟩ := h
    refine ⟨fun k => ?_, fun k => ?_, fun k => ?_⟩
    · simpa [entry_index_snd] using hc.1 k
    · simpa [entry_index_snd] using hc.2.1 k
    · simpa [entry_index_snd] using hc.2.2 k

theorem compField_legal : ∀ comp ∈ compMnemonics,
    compField (entry Code.init.comp_codes) comp =
      .ok (if 'M' ∈ comp then '1' else '0', entry Code.init.comp_codes (subst 'M' 'A' comp))
    ∧ (entry Code.init.comp_codes (subst 'M' 'A' comp)).length = 6 := by
  decide

theorem destField_legal : ∀ dest ∈ destMnemonics,
    (entry Code.init.dest_codes dest).length = 3 := by
  decide

theorem jumpField_legal : ∀ jump ∈ jumpMnemonics,
    (entry Code.init.jump_codes jump).length = 3 := by
  decide

/-- C1: for a C-instruction whose dest, comp and jump are legal mnemonics (8, 28
and 8 of them), `Code::machine_code` returns, without throwing, exactly the
16-character word `111 a c1..c6 d1d2d3 j1j2j3`, where `a` is `1` iff comp
contains `M`, the comp bits are the table entry of comp with `A` written for
`M`, and the dest and jump bits are their table entries.  This holds on every
`Code` object whose tables answer like the fresh ones, and the object stays
so. -/
theorem C1_machine_code_legal_c (c : Code) (ins : Instruction)
    (hc : c.Pristine) (ht : ins.type = 'C')
    (hd : ins.dest ∈ destMnemonics) (hm : ins.comp ∈ compMnemonics)
    (hj : ins.jump ∈ jumpMnemonics) :
    ∃ c', Code.machine_code c ins = .ok (cWord ins.dest ins.comp ins.jump, c')
      ∧ c'.Pristine ∧ (cWord ins.dest ins.comp ins.jump).length = 16 := by
  have hcomp : entry c.comp_codes = entry Code.init.comp_codes := funext hc.2.1
  have hm' := compField_legal ins.comp hm
  have hA : ¬ ins.type = 'A' := by rw [ht]; decide
  have hrun : ∃ c', Code.c_code c ins = .ok (cWord ins.dest ins.comp ins.jump, c') := by
    rw [c_code_eq, hcomp, hm'.1]
    simp only [cWord, hc.1 ins.dest, hc.2.2 ins.jump]
    exact ⟨_, rfl⟩
  obtain ⟨c', hc'⟩ := hrun
  refine ⟨c', by simp only [Code.machine_code, hA, if_false, hc'],
    c_code_pristine c c' ins _ hc hc', ?_⟩
  have h3 := destField_legal ins.dest hd
  have h3' := jumpField_legal ins.jump hj
  simp [cWord, hm'.2, h3, h3']

/-- C1, witness: `M=D+1` on a fresh `Code` object gives `1110011111001000`. -/
theorem C1_machine_code_legal_c_witness :
    Code.init.Pristine ∧
    ∃ c', Code.machine_code Code.init
        { type := 'C', dest := "M".data, comp := "D+1".data, jump := "null".data }
      = .ok ("1110011111001000".data, c') ∧ c'.Pristine
        ∧ ("1110011111001000".data).length = 16 :=
  ⟨pristine_init,
    C1_machine_code_legal_c Code.init
      { type := 'C', dest := "M".data, comp := "D+1".data, jump := "null".data }
      pristine_init rfl (by decide) (by decide) (by decide)⟩


/-! ## `find` and `substr` -/

theorem find_eq_none {s : Str} {c : Char} : find s c = none ↔ c ∉ s := by
  induction s with
  | nil => simp [find]
  | cons x r ih =>
    by_cases hx : x = c
    · simp [find, hx]
    · have hx' : ¬ c = x := fun h => hx h.symm
      simp [find, hx, hx', ih]

theorem find_isSome {s : Str} {c : Char} : find s c ≠ none ↔ c ∈ s := by
  rw [Ne, find_eq_none, not_not]

theorem find_eq_some {s : Str} {c : Char} {i : Nat} (h : find s c = some i) :
    i < s.length ∧ s.take i = s.takeWhile (fun ch => ch ≠ c)
      ∧ s.drop (i + 1) = (s.dropWhile (fun ch => ch ≠ c)).drop 1 := by
  induction s generalizing i with
  | nil => simp [find] at h
  | cons x r ih =>
    by_cases hx : x = c
    · simp only [find, hx, if_true, Option.some.injEq] at h
      subst h
      simp [hx, List.takeWhile, List.dropWhile]
    · simp only [find, hx, if_false, Option.map_eq_some'] at h
      obtain ⟨j, hj, rfl⟩ := h
      obtain ⟨h1, h2, h3⟩ := ih hj
      simp [hx, List.takeWhile, List.dropWhile, h1, h2, h3]

theorem succPos_find_le (s : Str) (c : Char) : succPos (find s c) ≤ s.length := by
  cases h : find s c with
  | none => simp [succPos]
  | some i => have := (find_eq_some h).1; simp only [succPos]; omega

theorem substr_ok {s : Str} {pos : Nat} (count : Option Nat) (h : pos ≤ s.length) :
    substr s pos count = .ok (slice s pos count) := by
  have h' : ¬ pos > s.length := by omega
  unfold substr slice
  cases count <;> simp [h']

theorem ite_ok {ε α : Type} (c : Prop) [Decidable c] (a b : α) :
    (if c then (Except.ok a : Except ε α) else Except.ok b) = Except.ok (if c then a else b) := by
  split <;> rfl

/-! ## `parse_c` -/

/-- What `parse_c` computes: it never throws, and its three fields are these
slices of the line. -/
theorem parse_c_eq (line : Str) :
    Parser.parse_c line = .ok
      { type := 'C'
        dest := if find line '=' ≠ none then slice line 0 (find line '=') else "null".data
        jump := if find line ';' ≠ none then slice line (succPos (find line ';')) none
                else "null".data
        comp :=
          if (if find line '=' ≠ none then slice line 0 (find line '=') else "null".data)
                ≠ "null".data ∧
              (if find line ';' ≠ none then slice line (succPos (find line ';')) none
                else "null".data) ≠ "null".data then
            slice line (succPos (find line '=')) (find line ';')
          else if (if find line '=' ≠ none then slice line 0 (find line '=') else "null".data)
                ≠ "null".data then
            slice line (succPos (find line '=')) none
          else slice line 0 (find line ';') } := by
  simp only [Parser.parse_c, substr_ok _ (succPos_find_le line _),
    substr_ok _ (Nat.zero_le _), ite_ok]

/-- C2, the code at the failing input: on the cleaned line `D=M;JGT` the code
sets comp to `M;J` (three characters from position 2), not to `M`. -/
theorem C2_parse_c_full_shape_comp :
    Parser.parse_c "D=M;JGT".data
      = .ok { type := 'C', dest := "D".data, comp := "M;J".data, jump := "JGT".data } := by
  decide

/-- C3: for every line, `Parser::parse_c` returns, with dest the text before the
first `=` when the line contains `=` and `null` otherwise, and jump the text
after the first `;` when the line contains `;` and `null` otherwise. -/
theorem C3_parse_c_dest_jump (line : Str) :
    ∃ ins, Parser.parse_c line = .ok ins ∧
      ins.dest = (if '=' ∈ line then line.takeWhile (fun ch => ch ≠ '=') else "null".data) ∧
      ins.jump = (if ';' ∈ line then (line.dropWhile (fun ch => ch ≠ ';')).drop 1
                  else "null".data) := by
  refine ⟨_, parse_c_eq line, ?_, ?_⟩
  · by_cases he : '=' ∈ line
    · obtain ⟨i, hi⟩ := Option.ne_none_iff_exists'.mp (find_isSome.mpr he)
      simp only [hi, he, if_true, ne_eq, not_false_eq_true, slice, List.drop_zero,
        (find_eq_some hi).2.1, reduceCtorEq]
    · simp only [find_eq_none.mpr he, he, if_false, ne_eq, not_true_eq_false]
  · by_cases hs : ';' ∈ line
    · obtain ⟨j, hj⟩ := Option.ne_none_iff_exists'.mp (find_isSome.mpr hs)
      simp only [hj, hs, if_true, ne_eq, not_false_eq_true, slice, succPos,
        (find_eq_some hj).2.2, reduceCtorEq]
    · simp only [find_eq_none.mpr hs, hs, if_false, ne_eq, not_true_eq_false]

/-! ## `a_code` -/

theorem bitsMSB_length (n u : Nat) : (bitsMSB n u).length = n := by
  induction n with
  | zero => rfl
  | succ n ih => simp [bitsMSB, ih]

theorem bitChar_binary (u i : Nat) : bitChar u i = '0' ∨ bitChar u i = '1' := by
  unfold bitChar
  split <;> simp

theorem bitsMSB_binary (n u : Nat) : ∀ ch ∈ bitsMSB n u, ch = '0' ∨ ch = '1' := by
  induction n with
  | zero => simp [bitsMSB]
  | succ n ih =>
    intro ch hch
    simp only [bitsMSB, List.mem_cons] at hch
    rcases hch with rfl | hch
    · exact bitChar_binary u n
    · exact ih ch hch

theorem foldl_bitsMSB (n u acc : Nat) :
    (bitsMSB n u).foldl (fun acc ch => 2 * acc + (if ch = '1' then 1 else 0)) acc
      = acc * 2 ^ n + u % 2 ^ n := by
  induction n generalizing acc with
  | zero => simp [bitsMSB, Nat.mod_one]
  | succ n ih =>
    simp only [bitsMSB, List.foldl_cons, ih]
    have hbit : (if bitChar u n = '1' then 1 else 0) = u / 2 ^ n % 2 := by
      unfold bitChar
      have : u / 2 ^ n % 2 = 0 ∨ u / 2 ^ n % 2 = 1 := by omega
      rcases this with h | h <;> simp [h]
    rw [hbit, Nat.mod_pow_succ]
    ring

theorem binValue_bitsMSB (n u : Nat) : binValue (bitsMSB n u) = u % 2 ^ n := by
  simp [binValue, foldl_bitsMSB]

/-- The first character of a 16-bit word is `'0'` exactly when bit 15 is clear. -/
theorem head_bitsMSB16 (u : Nat) :
    (bitsMSB 16 u).head? = some '0' ↔ u % 65536 < 32768 := by
  simp only [bitsMSB, List.head?_cons, Option.some.injEq, bitChar]
  have : u / 2 ^ 15 % 2 = 0 ∨ u / 2 ^ 15 % 2 = 1 := by omega
  rcases this with h | h
  · simp only [h]
    constructor
    · intro _; omega
    · intro _; decide
  · simp only [h]
    constructor
    · intro hc; exact absurd hc (by decide)
    · intro hlt; omega

theorem machine_code_a (c : Code) (ins : Instruction) (ht : ins.type = 'A') :
    Code.machine_code c ins = .ok (bitsMSB 16 (ins.value % 2 ^ 64).toNat, c) := by
  simp [Code.machine_code, ht, Code.a_code, bitset16_to_string]

/-- C4: for an A-instruction with value `v` in `[0, 32767]`, `Code::machine_code`
returns a 16-character string of `'0'`/`'1'` which, read as a base-2 numeral
most significant bit first, is `v`, and whose first character is `'0'`. -/
theorem C4_machine_code_a_value (c : Code) (ins : Instruction) (ht : ins.type = 'A')
    (h0 : 0 ≤ ins.value) (h1 : ins.value ≤ 32767) :
    ∃ w, Code.machine_code c ins = .ok (w, c) ∧ w.length = 16 ∧
      (∀ ch ∈ w, ch = '0' ∨ ch = '1') ∧ (binValue w : Int) = ins.value ∧
      w.head? = some '0' := by
  refine ⟨_, machine_code_a c ins ht, bitsMSB_length _ _, bitsMSB_binary _ _, ?_, ?_⟩
  · rw [binValue_bitsMSB]
    have hm : ins.value % 2 ^ 64 = ins.value := Int.emod_eq_of_lt h0 (by omega)
    rw [hm]
    have : (ins.value.toNat : Int) = ins.value := Int.toNat_of_nonneg h0
    omega
  · rw [head_bitsMSB16]
    have hm : ins.value % 2 ^ 64 = ins.value := Int.emod_eq_of_lt h0 (by omega)
    rw [hm]
    have : (ins.value.toNat : Int) = ins.value := Int.toNat_of_nonneg h0
    omega

/-- C4, witness: the value 16384 (`SCREEN`) is encoded as `0100000000000000`. -/
theorem C4_machine_code_a_value_witness :
    ∃ w, Code.machine_code Code.init { type := 'A', value := 16384 } = .ok (w, Code.init) ∧
      w.length = 16 ∧ (∀ ch ∈ w, ch = '0' ∨ ch = '1') ∧ (binValue w : Int) = 16384 ∧
      w.head? = some '0' :=
  C4_machine_code_a_value Code.init { type := 'A', value := 16384 } rfl (by decide) (by decide)

/-! ## `parse_a` followed by the encoder -/

theorem parse_a_type {t t' : SymbolTable} {line : Str} {ins : Instruction}
    (h : Parser.parse_a t line = .ok (ins, t')) : ins.type = 'A' := by
  unfold Parser.parse_a at h
  cases hs : substr line 1 none with
  | error e => simp [hs] at h
  | ok A =>
    simp only [hs] at h
    cases hv : stoi A with
    | ok v =>
      simp only [hv, Except.ok.injEq, Prod.mk.injEq] at h
      rw [← h.1]
    | error e =>
      cases e with
      | out_of_range => simp [hv] at h
      | invalid_argument =>
        simp only [hv] at h
        split at h <;>
          (simp only [Except.ok.injEq, Prod.mk.injEq] at h; rw [← h.1])

/-- C5, counterexample: the cleaned line `@32768` is accepted by `parse_a` and
its word is `1000000000000000`, whose first character is `'1'`. -/
theorem C5_counterexample :
    at0 "@32768".data = '@' ∧
    Parser.parse_a SymbolTable.init "@32768".data
      = .ok ({ type := 'A', value := 32768 }, SymbolTable.init) ∧
    Code.machine_code Code.init { type := 'A', value := 32768 }
      = .ok ("1000000000000000".data, Code.init) := by
  decide

/-- C5, amended: for every cleaned line beginning with `@` that `parse_a`
accepts, `machine_code` returns the 16 low bits of the parsed value (the encoder
keeps 16 bits, not 15), so the first character of the word is `'0'` exactly
when the value modulo `2^16` is below `2^15`. -/
theorem C5_a_word_msb (t t' : SymbolTable) (line : Str) (ins : Instruction) (c : Code)
    (_hat : at0 line = '@') (hp : Parser.parse_a t line = .ok (ins, t')) :
    ∃ w, Code.machine_code c ins = .ok (w, c) ∧ w.length = 16 ∧
      (binValue w : Int) = ins.value % 65536 ∧
      (w.head? = some '0' ↔ ins.value % 65536 < 32768) := by
  have hcast : (((ins.value % 2 ^ 64).toNat % 65536 : Nat) : Int) = ins.value % 65536 := by
    have h0 : 0 ≤ ins.value % 2 ^ 64 := Int.emod_nonneg _ (by norm_num)
    have h1 : ((ins.value % 2 ^ 64).toNat : Int) = ins.value % 2 ^ 64 := Int.toNat_of_nonneg h0
    push_cast
    norm_num at h0 h1 ⊢
    omega
  refine ⟨_, machine_code_a c ins (parse_a_type hp), bitsMSB_length _ _, ?_, ?_⟩
  · rw [binValue_bitsMSB]
    exact hcast
  · rw [head_bitsMSB16]
    omega

/-- C5, witness: `@i` on the fresh symbol table is parsed to 16, whose word
starts with `'0'`. -/
theorem C5_a_word_msb_witness :
    at0 "@i".data = '@' ∧
    ∃ w, Code.machine_code Code.init { type := 'A', value := 16 } = .ok (w, Code.init) ∧
      w.length = 16 ∧ (binValue w : Int) = (16 : Int) % 65536 ∧
      (w.head? = some '0' ↔ (16 : Int) % 65536 < 32768) :=
  ⟨by decide,
    C5_a_word_msb SymbolTable.init (SymbolTable.init.allocate "i".data).2 "@i".data
      { type := 'A', value := 16 } Code.init (by decide) (by decide)⟩

/-! ## `Parser::clean` -/

theorem at0_eq_iff {s : Str} {ch : Char} (h : ch ≠ Char.ofNat 0) :
    at0 s = ch ↔ s.head? = some ch := by
  cases s with
  | nil =>
    simp only [at0, List.headD_nil, List.head?_nil, reduceCtorEq, iff_false]
    exact fun hc => h hc.symm
  | cons x r => simp [at0]

/-- The loop body of `clean` never throws; this is what it does. -/
theorem clean_line_eq (p : Parser) (raw : Str) :
    p.clean_line raw = .ok
      (if raw.length = 0 then p
       else if at0 (raw.filter (fun ch => ch ≠ ' ')) = '/' then p
       else if at0 (normalize raw) = '(' then
         { p with symbolTable := (p.symbolTable.add
              (slice (normalize raw) 1 (subSize (normalize raw).length 2)) p.counter) }
       else { p with lines := p.lines ++ [normalize raw], counter := p.counter + 1 }) := by
  unfold Parser.clean_line
  by_cases h0 : raw.length = 0
  · simp only [h0, if_true]
  · simp only [h0, if_false]
    by_cases h1 : at0 (raw.filter (fun ch => ch ≠ ' ')) = '/'
    · simp only [h1, if_true]
    · simp only [h1, if_false]
      by_cases h2 : at0 (normalize raw) = '('
      · have hne : 1 ≤ (normalize raw).length := by
          cases hn : normalize raw with
          | nil => rw [hn] at h2; exact absurd h2 (by decide)
          | cons x r => simp
        have h2' : at0 (List.takeWhile (fun ch => decide (ch ≠ '/'))
            (List.filter (fun ch => decide (ch ≠ ' ')) raw)) = '(' := h2
        simp only [h2', if_true]
        have := substr_ok (subSize (normalize raw).length 2) hne
        unfold normalize at this
        simp only [this]
        rw [if_pos h2]
        rfl
      · have h2' : ¬ at0 (List.takeWhile (fun ch => decide (ch ≠ '/'))
            (List.filter (fun ch => decide (ch ≠ ' ')) raw)) = '(' := h2
        simp only [h2', if_false]
        rw [if_neg h2]
        rfl

theorem clean_line_empty (p : Parser) (raw : Str) (h0 : raw.length = 0) :
    p.clean_line raw = .ok p := by
  rw [clean_line_eq, if_pos h0]

theorem clean_line_comment (p : Parser) (raw : Str) (h0 : ¬ raw.length = 0)
    (h1 : at0 (raw.filter (fun ch => ch ≠ ' ')) = '/') :
    p.clean_line raw = .ok p := by
  rw [clean_line_eq, if_neg h0, if_pos h1]

theorem clean_line_label (p : Parser) (raw : Str) (h0 : ¬ raw.length = 0)
    (h1 : ¬ at0 (raw.filter (fun ch => ch ≠ ' ')) = '/')
    (h2 : at0 (normalize raw) = '(') :
    p.clean_line raw = .ok
      { symbolTable := p.symbolTable.add
          (slice (normalize raw) 1 (subSize (normalize raw).length 2)) p.counter
        counter := p.counter
        lines := p.lines
        instructions := p.instructions } := by
  rw [clean_line_eq, if_neg h0, if_neg h1, if_pos h2]

theorem clean_line_emit (p : Parser) (raw : Str) (h0 : ¬ raw.length = 0)
    (h1 : ¬ at0 (raw.filter (fun ch => ch ≠ ' ')) = '/')
    (h2 : ¬ at0 (normalize raw) = '(') :
    p.clean_line raw = .ok
      { symbolTable := p.symbolTable
        counter := p.counter + 1
        lines := p.lines ++ [normalize raw]
        instructions := p.instructions } := by
  rw [clean_line_eq, if_neg h0, if_neg h1, if_neg h2]

/-- A raw line of spaces only is emitted as an empty cleaned line and advances
the instruction counter: the emptiness test of `clean` runs before the spaces
are removed. -/
theorem clean_blank_line_emitted :
    Parser.clean (Parser.fresh SymbolTable.init) ["   ".data]
      = .ok { Parser.fresh SymbolTable.init with lines := [[]], counter := 1 } := by
  decide

theorem filter_of_spaced {c r : Str} (h : Spaced c r) :
    r.filter (fun ch => ch ≠ ' ') = c.filter (fun ch => ch ≠ ' ') := by
  induction h with
  | nil => rfl
  | keep x _ ih => simp only [List.filter_cons, ih]
  | space _ ih => rw [← ih]; rfl

theorem filter_of_cleaned {c : Str} (h : Cleaned c) : c.filter (fun ch => ch ≠ ' ') = c := by
  rw [List.filter_eq_self]
  intro ch hch
  have := h.2.1 ch hch
  have hne : ch ≠ ' ' := by
    rintro rfl
    exact absurd this (by decide)
  simp [hne]

theorem takeWhile_append_stop (c s : Str) (hc : '/' ∉ c)
    (hs : s = [] ∨ s.head? = some '/') :
    (c ++ s).takeWhile (fun ch => ch ≠ '/') = c := by
  induction c with
  | nil =>
    rcases hs with hs | hs
    · simp [hs]
    · cases s with
      | nil => simp
      | cons x r =>
        simp only [List.head?_cons, Option.some.injEq] at hs
        simp [List.takeWhile, hs]
  | cons x r ih =>
    have hx : x ≠ '/' := fun h => hc (by simp [h])
    have hr : '/' ∉ r := fun h => hc (List.mem_cons_of_mem _ h)
    have hd : decide (x ≠ '/') = true := decide_eq_true hx
    rw [List.cons_append, List.takeWhile_cons, hd, ih hr]
    rfl

theorem filter_comment (s : Str) (hs : s = [] ∨ s.head? = some '/') :
    s.filter (fun ch => ch ≠ ' ') = [] ∨
      (s.filter (fun ch => ch ≠ ' ')).head? = some '/' := by
  rcases hs with hs | hs
  · left; simp [hs]
  · cases s with
    | nil => left; rfl
    | cons x r =>
      simp only [List.head?_cons, Option.some.injEq] at hs
      subst hs
      right
      simp [List.filter_cons]

/-- A cleaned line with spaces inserted and a comment appended is emitted by the
loop body of `clean` as the cleaned line itself. -/
theorem clean_line_of_spaced (p : Parser) (c r suffix : Str) (hc : Cleaned c)
    (hr : Spaced c r) (hs : suffix = [] ∨ suffix.head? = some '/') :
    p.clean_line (r ++ suffix)
      = .ok { p with lines := p.lines ++ [c], counter := p.counter + 1 } := by
  have hf : (r ++ suffix).filter (fun ch => ch ≠ ' ')
      = c ++ suffix.filter (fun ch => ch ≠ ' ') := by
    rw [List.filter_append, filter_of_spaced hr, filter_of_cleaned hc]
  have hn : normalize (r ++ suffix) = c := by
    unfold normalize
    rw [hf]
    exact takeWhile_append_stop c _ hc.2.2.1 (filter_comment suffix hs)
  obtain ⟨hne, -, hslash, hparen⟩ := hc
  obtain ⟨x, c', rfl⟩ := List.exists_cons_of_ne_nil hne
  have hx1 : x ≠ '/' := fun h => hslash (by simp [h])
  have hx2 : x ≠ '(' := fun h => hparen (by simp [h])
  have hlen : ¬ (r ++ suffix).length = 0 := by
    intro h0
    have : r ++ suffix = [] := List.length_eq_zero.mp h0
    rw [this] at hf
    exact absurd hf (by simp)
  have h1 : ¬ at0 ((r ++ suffix).filter (fun ch => ch ≠ ' ')) = '/' := by
    rw [hf]; exact hx1
  have h2 : ¬ at0 (normalize (r ++ suffix)) = '(' := by
    rw [hn]; exact hx2
  rw [clean_line_emit p _ hlen h1 h2, hn]

/-- C9: for a cleaned line `c` (non-empty, no white space, no `/`, not beginning
with `(`) and a raw line made of `c` with space characters inserted anywhere,
followed by nothing or by any text beginning with `/`, `Parser::clean` emits
exactly the one cleaned line `c` and advances the instruction counter by 1. -/
theorem C9_clean_spaces_and_comment (p : Parser) (c r suffix : Str) (hc : Cleaned c)
    (hr : Spaced c r) (hs : suffix = [] ∨ suffix.head? = some '/') :
    Parser.clean p [r ++ suffix]
      = .ok { p with lines := p.lines ++ [c], counter := p.counter + 1 } := by
  simp only [Parser.clean, clean_line_of_spaced p c r suffix hc hr hs]

/-- C9, witness: `   D = D + A   // add them` is cleaned to `D=D+A`. -/
theorem C9_clean_spaces_and_comment_witness :
    Parser.clean (Parser.fresh SymbolTable.init)
        ["   D = D + A   ".data ++ "// add them".data]
      = .ok { symbolTable := SymbolTable.init, counter := 0 + 1,
              lines := [] ++ ["D=D+A".data], instructions := [] } :=
  C9_clean_spaces_and_comment (Parser.fresh SymbolTable.init) "D=D+A".data
    "   D = D + A   ".data "// add them".data
    ⟨by decide, by decide, by decide, by decide⟩
    (.space (.space (.space (.keep 'D' (.space (.keep '=' (.space (.keep 'D' (.space
      (.keep '+' (.space (.keep 'A' (.space (.space (.space .nil)))))))))))))))
    (Or.inr rfl)

/-- C10: normalisation is idempotent on cleaned lines: for a line that is
already cleaned, `Parser::clean` emits that same line as its single cleaned
line, advances the counter by 1, and leaves the symbol table as it was. -/
theorem C10_clean_idempotent (p : Parser) (c : Str) (hc : Cleaned c) :
    ∃ p', Parser.clean p [c] = .ok p' ∧ p'.lines = p.lines ++ [c] ∧
      p'.counter = p.counter + 1 ∧ p'.symbolTable = p.symbolTable := by
  have hsp : Spaced c c := by
    clear hc
    induction c with
    | nil => exact .nil
    | cons x r ih => exact .keep x ih
  have h := clean_line_of_spaced p c c [] hc hsp (Or.inl rfl)
  rw [List.append_nil] at h
  exact ⟨{ p with lines := p.lines ++ [c], counter := p.counter + 1 },
    by simp only [Parser.clean, h], rfl, rfl, rfl⟩

/-- C10, witness: the cleaned line `D=D+A` is emitted unchanged. -/
theorem C10_clean_idempotent_witness :
    ∃ p', Parser.clean (Parser.fresh SymbolTable.init) ["D=D+A".data] = .ok p' ∧
      p'.lines = (Parser.fresh SymbolTable.init).lines ++ ["D=D+A".data] ∧
      p'.counter = (Parser.fresh SymbolTable.init).counter + 1 ∧
      p'.symbolTable = (Parser.fresh SymbolTable.init).symbolTable :=
  C10_clean_idempotent (Parser.fresh SymbolTable.init) "D=D+A".data
    ⟨by decide, by decide, by decide, by decide⟩

/-! ## Parsing A-instructions: variables -/

theorem substr_one {line : Str} (h : at0 line = '@') :
    substr line 1 none = .ok (line.drop 1) := by
  have hne : 1 ≤ line.length := by
    cases line with
    | nil => exact absurd h (by decide)
    | cons x r => simp
  rw [substr_ok none hne]
  rfl

theorem contains_eq_true {t : SymbolTable} {x : Str} :
    t.contains x = true ↔ ∃ v, lookup t.symbols x = some v := by
  unfold SymbolTable.contains
  exact Option.isSome_iff_exists

theorem contains_eq_false {t : SymbolTable} {x : Str} :
    t.contains x = false ↔ lookup t.symbols x = none := by
  unfold SymbolTable.contains
  cases lookup t.symbols x <;> simp

theorem parse_a_number {t : SymbolTable} {line A : Str} {v : Int}
    (hs : substr line 1 none = .ok A) (hv : stoi A = .ok v) :
    Parser.parse_a t line = .ok ({ type := 'A', value := v }, t) := by
  simp only [Parser.parse_a, hs, hv]

theorem parse_a_overflow {t : SymbolTable} {line A : Str}
    (hs : substr line 1 none = .ok A) (hv : stoi A = .error .out_of_range) :
    Parser.parse_a t line = .error .out_of_range := by
  simp only [Parser.parse_a, hs, hv]

theorem parse_a_known {t : SymbolTable} {line A : Str} {v : Int}
    (hs : substr line 1 none = .ok A) (hv : stoi A = .error .invalid_argument)
    (hk : lookup t.symbols A = some v) :
    Parser.parse_a t line = .ok ({ type := 'A', value := v }, t) := by
  have hc : t.contains A = true := contains_eq_true.mpr ⟨v, hk⟩
  simp only [Parser.parse_a, hs, hv, hc, if_true, SymbolTable.get_value, index, hk]

theorem parse_a_new {t : SymbolTable} {line A : Str}
    (hs : substr line 1 none = .ok A) (hv : stoi A = .error .invalid_argument)
    (hk : lookup t.symbols A = none) :
    Parser.parse_a t line = .ok ({ type := 'A', value := t.next_variable },
      { symbols := assign t.symbols A t.next_variable
        next_variable := t.next_variable + 1 }) := by
  have hc : t.contains A = false := contains_eq_false.mpr hk
  simp only [Parser.parse_a, hs, hv, hc, Bool.false_eq_true, if_false, SymbolTable.allocate]

theorem varInv_start (st : SymbolTable) : VarInv st [] st := by
  refine ⟨by simp, fun x => ?_⟩
  cases hc : st.contains x with
  | true => simp only [if_true]
  | false =>
    simp only [Bool.false_eq_true, if_false, List.not_mem_nil]
    exact contains_eq_false.mp hc

theorem noteVariable_same {st : SymbolTable} {acc : List Str} {line A : Str}
    (href : referenced line = some A) (h : ¬ (isVariable st A = true ∧ A ∉ acc)) :
    noteVariable st acc line = acc := by
  simp only [noteVariable, href, if_neg h]

theorem noteVariable_new {st : SymbolTable} {acc : List Str} {line A : Str}
    (href : referenced line = some A) (h : isVariable st A = true ∧ A ∉ acc) :
    noteVariable st acc line = acc ++ [A] := by
  simp only [noteVariable, href, if_pos h]

theorem isVariable_iff {st : SymbolTable} {x : Str} :
    isVariable st x = true ↔
      stoi x = .error .invalid_argument ∧ st.contains x = false := by
  simp [isVariable]

theorem rank_append_of_mem {x : Str} {l : List Str} (m : List Str) (h : x ∈ l) :
    rank x (l ++ m) = rank x l := by
  induction l with
  | nil => exact absurd h (List.not_mem_nil _)
  | cons y r ih =>
    show rank x (y :: (r ++ m)) = rank x (y :: r)
    by_cases hy : y = x
    · rw [rank, rank, if_pos hy, if_pos hy]
    · have hr : x ∈ r := by
        rcases List.mem_cons.mp h with h | h
        · exact absurd h.symm hy
        · exact h
      rw [rank, rank, if_neg hy, if_neg hy, ih hr]

theorem rank_append_of_not_mem {x : Str} {l : List Str} (m : List Str) (h : x ∉ l) :
    rank x (l ++ m) = l.length + rank x m := by
  induction l with
  | nil => simp
  | cons y r ih =>
    have hy : ¬ y = x := fun e => h (by simp [e])
    have hr : x ∉ r := fun e => h (List.mem_cons_of_mem _ e)
    show rank x (y :: (r ++ m)) = (y :: r).length + rank x m
    rw [rank, if_neg hy, ih hr, List.length_cons]
    omega

theorem rank_of_not_mem {x : Str} {l : List Str} (h : x ∉ l) : rank x l = l.length := by
  have := rank_append_of_not_mem [] h
  simpa [rank] using this

/-- The table after `allocate` on a name that is a new variable. -/
theorem varInv_allocate {st t : SymbolTable} {acc : List Str} {A : Str}
    (hinv : VarInv st acc t) (hc : st.contains A = false) (hacc : A ∉ acc) :
    VarInv st (acc ++ [A])
      { symbols := assign t.symbols A t.next_variable
        next_variable := t.next_variable + 1 } := by
  refine ⟨?_, fun x => ?_⟩
  · simp only [hinv.1, List.length_append, List.length_singleton]
    push_cast; ring
  · simp only [lookup_assign]
    by_cases hxe : A = x
    · subst hxe
      have hidx : rank A (acc ++ [A]) = acc.length := by
        rw [rank_append_of_not_mem _ hacc]; simp [rank]
      have hmem : A ∈ acc ++ [A] := by simp
      simp only [if_true, hc, Bool.false_eq_true, if_false, hmem, hidx, hinv.1]
    · have hxe' : ¬ x = A := fun h => hxe h.symm
      rw [if_neg hxe, hinv.2 x]
      cases hcx : st.contains x with
      | true => simp only [if_true]
      | false =>
        simp only [Bool.false_eq_true, if_false]
        by_cases hm : x ∈ acc
        · have hm' : x ∈ acc ++ [A] := List.mem_append_left _ hm
          simp only [hm, hm', if_true, rank_append_of_mem _ hm]
        · have hm' : ¬ x ∈ acc ++ [A] := by
            simp only [List.mem_append, List.mem_singleton, hm, hxe', or_self,
              not_false_eq_true]
          simp only [hm, hm', if_false]

/-- The symbol table after one step of the parsing loop. -/
theorem varInv_parse_line {st : SymbolTable} {acc : List Str} {p p' : Parser} {line : Str}
    (hinv : VarInv st acc p.symbolTable) (hp : p.parse_line line = .ok p') :
    VarInv st (noteVariable st acc line) p'.symbolTable := by
  unfold Parser.parse_line at hp
  by_cases hat : at0 line = '@'
  · simp only [hat, if_true] at hp
    have href : referenced line = some (line.drop 1) := by
      simp only [referenced, hat, if_true]
    have hs := substr_one hat
    generalize line.drop 1 = A at href hs
    cases hv : stoi A with
    | ok v =>
      rw [parse_a_number hs hv] at hp
      simp only [Except.ok.injEq] at hp
      subst hp
      have hnot : ¬ (isVariable st A = true ∧ A ∉ acc) := by
        rintro ⟨h1, -⟩
        rw [isVariable_iff, hv] at h1
        exact absurd h1.1 (by simp)
      rw [noteVariable_same href hnot]
      exact hinv
    | error e =>
      cases e with
      | out_of_range =>
        rw [parse_a_overflow hs hv] at hp
        exact absurd hp (by simp)
      | invalid_argument =>
        have hx := hinv.2 A
        cases hk : lookup p.symbolTable.symbols A with
        | some v =>
          rw [parse_a_known hs hv hk] at hp
          simp only [Except.ok.injEq] at hp
          subst hp
          rw [hk] at hx
          have hnot : ¬ (isVariable st A = true ∧ A ∉ acc) := by
            rintro ⟨h1, h2⟩
            rw [isVariable_iff] at h1
            simp only [h1.2, Bool.false_eq_true, if_false, h2] at hx
            exact absurd hx (by simp)
          rw [noteVariable_same href hnot]
          exact hinv
        | none =>
          rw [parse_a_new hs hv hk] at hp
          simp only [Except.ok.injEq] at hp
          subst hp
          rw [hk] at hx
          have hc : st.contains A = false := by
            cases hcs : st.contains A with
            | false => rfl
            | true =>
              simp only [hcs, if_true] at hx
              obtain ⟨v, hv'⟩ := contains_eq_true.mp hcs
              rw [hv'] at hx
              exact absurd hx (by simp)
          have hacc : A ∉ acc := by
            intro hm
            simp only [hc, Bool.false_eq_true, if_false, hm, if_true] at hx
            exact absurd hx (by simp)
          rw [noteVariable_new href ⟨isVariable_iff.mpr ⟨hv, hc⟩, hacc⟩]
          exact varInv_allocate hinv hc hacc
  · simp only [hat, if_false] at hp
    have href : referenced line = none := by simp only [referenced, hat, if_false]
    have hnote : noteVariable st acc line = acc := by simp only [noteVariable, href]
    cases hc : Parser.parse_c line with
    | error e => simp [hc] at hp
    | ok ins =>
      simp only [hc, Except.ok.injEq] at hp
      subst hp
      rw [hnote]
      exact hinv

/-- The symbol table after the parsing loop has run over `lines`. -/
theorem varInv_parse_all {st : SymbolTable} {lines : List Str} :
    ∀ {acc : List Str} {p p' : Parser}, VarInv st acc p.symbolTable →
      Parser.parse_all p lines = .ok p' →
      VarInv st (variablesFrom st acc lines) p'.symbolTable := by
  induction lines with
  | nil =>
    intro acc p p' hinv hp
    simp only [Parser.parse_all, Except.ok.injEq] at hp
    subst hp
    exact hinv
  | cons l rest ih =>
    intro acc p p' hinv hp
    simp only [Parser.parse_all] at hp
    cases h1 : p.parse_line l with
    | error e => simp [h1] at hp
    | ok p₁ =>
      simp only [h1] at hp
      exact ih (varInv_parse_line hinv h1) hp

theorem referenced_eq_some {line x : Str} : referenced line = some x ↔ line = '@' :: x := by
  cases line with
  | nil =>
    have h0 : ¬ at0 ([] : Str) = '@' := by decide
    simp only [referenced, h0, if_false, reduceCtorEq, false_iff]
  | cons y r =>
    by_cases hy : y = '@'
    · subst hy
      have h0 : at0 ('@' :: r) = '@' := rfl
      simp only [referenced, h0, if_true, List.drop_succ_cons, List.drop_zero,
        Option.some.injEq, List.cons.injEq, true_and]
    · have h0 : ¬ at0 (y :: r) = '@' := hy
      simp only [referenced, h0, if_false, reduceCtorEq, List.cons.injEq, hy, false_and]

theorem variablesFrom_cons (st : SymbolTable) (acc : List Str) (l : Str) (rest : List Str) :
    variablesFrom st acc (l :: rest) = variablesFrom st (noteVariable st acc l) rest := rfl

theorem noteVariable_extends (st : SymbolTable) (acc : List Str) (l : Str) :
    ∃ ext, noteVariable st acc l = acc ++ ext := by
  unfold noteVariable
  cases referenced l with
  | none => exact ⟨[], by simp⟩
  | some x =>
    by_cases h : isVariable st x = true ∧ x ∉ acc
    · exact ⟨[x], by simp only [if_pos h]⟩
    · exact ⟨[], by simp only [if_neg h, List.append_nil]⟩

theorem variablesFrom_extends (st : SymbolTable) (lines : List Str) :
    ∀ acc, ∃ ext, variablesFrom st acc lines = acc ++ ext := by
  induction lines with
  | nil => exact fun acc => ⟨[], by simp [variablesFrom]⟩
  | cons l rest ih =>
    intro acc
    obtain ⟨e₁, h₁⟩ := noteVariable_extends st acc l
    obtain ⟨e₂, h₂⟩ := ih (noteVariable st acc l)
    exact ⟨e₁ ++ e₂, by rw [variablesFrom_cons, h₂, h₁, List.append_assoc]⟩

/-- The rank of a variable among the variables of `lines` is the number of
distinct variables met before its first reference. -/
theorem rank_variablesFrom (st : SymbolTable) (name : Str) (hvar : isVariable st name = true)
    (lines : List Str) :
    ∀ acc, name ∉ acc →
      rank name (variablesFrom st acc lines)
        = (variablesFrom st acc (lines.take (rank ('@' :: name) lines))).length := by
  induction lines with
  | nil =>
    intro acc hacc
    exact rank_of_not_mem hacc
  | cons l rest ih =>
    intro acc hacc
    by_cases hl : l = '@' :: name
    · have hnote : noteVariable st acc l = acc ++ [name] :=
        noteVariable_new (referenced_eq_some.mpr hl) ⟨hvar, hacc⟩
      obtain ⟨ext, hext⟩ := variablesFrom_extends st rest (acc ++ [name])
      have hmem : name ∈ acc ++ [name] := by simp
      have hr0 : rank ('@' :: name) (l :: rest) = 0 := by rw [rank, if_pos hl]
      have hl0 : rank name (acc ++ [name]) = acc.length := by
        rw [rank_append_of_not_mem _ hacc, rank, if_pos rfl]; rfl
      rw [variablesFrom_cons, hnote, hext, rank_append_of_mem _ hmem, hl0, hr0,
        List.take_zero]
      rfl
    · have hacc' : name ∉ noteVariable st acc l := by
        unfold noteVariable
        cases href : referenced l with
        | none => exact hacc
        | some x =>
          have hx : ¬ x = name := by
            rintro rfl
            exact hl (referenced_eq_some.mp href)
          by_cases h : isVariable st x = true ∧ x ∉ acc
          · simp only [if_pos h, List.mem_append, List.mem_singleton, hacc, false_or]
            exact fun e => hx e.symm
          · simp only [if_neg h]
            exact hacc
      rw [variablesFrom_cons, ih _ hacc', rank, if_neg hl, List.take_succ_cons,
        variablesFrom_cons]

theorem rank_take {x : Str} : ∀ {lines : List Str} {i : Nat}, lines[i]? = some x →
    rank x lines ≤ i ∧ rank x (lines.take i) = rank x lines := by
  intro lines
  induction lines with
  | nil => intro i h; simp at h
  | cons y r ih =>
    intro i h
    by_cases hy : y = x
    · cases i with
      | zero => simp [rank, hy]
      | succ i' => simp [rank, hy]
    · cases i with
      | zero =>
        simp only [List.getElem?_cons_zero, Option.some.injEq] at h
        exact absurd h hy
      | succ i' =>
        simp only [List.getElem?_cons_succ] at h
        obtain ⟨h1, h2⟩ := ih h
        rw [List.take_succ_cons, rank, rank, if_neg hy, if_neg hy, h2]
        exact ⟨by omega, rfl⟩

/-- C6, counterexample: `-1` is a non-empty name whose first character is not a
digit and which the fresh table does not contain, yet `@-1` is given the value
`-1`, not `16`. -/
theorem C6_counterexample :
    "-1".data ≠ [] ∧ ('-').isDigit = false ∧
    SymbolTable.init.contains "-1".data = false ∧
    Parser.parse_a SymbolTable.init "@-1".data
      = .ok ({ type := 'A', value := -1 }, SymbolTable.init) := by
  decide

/-- C6, amended: let the lines be parsed in order from a table whose next
variable address is 16 (the label pass is over), and let `name` be a symbol
that `std::stoi` does not convert and that this table does not contain.  At
every occurrence of `@name` that the parsing loop reaches, `parse_a` returns
the value `16 + k`, where `k` is the number of distinct such symbols met
before the first `@name`. -/
theorem C6_variable_address (p pᵢ : Parser) (lines : List Str) (name : Str) (i : Nat)
    (hbase : p.symbolTable.next_variable = 16)
    (hsym : stoi name = .error .invalid_argument)
    (hnew : p.symbolTable.contains name = false)
    (hocc : lines[i]? = some ('@' :: name))
    (hpre : Parser.parse_all p (lines.take i) = .ok pᵢ) :
    ∃ t', Parser.parse_a pᵢ.symbolTable ('@' :: name)
      = .ok ({ type := 'A',
               value := 16 + ((variablesIn p.symbolTable
                  (lines.take (rank ('@' :: name) lines))).length : Int) }, t') := by
  have hinv := varInv_parse_all (varInv_start p.symbolTable) hpre
  have hs : substr ('@' :: name) 1 none = .ok name := substr_one rfl
  have hvar : isVariable p.symbolTable name = true := isVariable_iff.mpr ⟨hsym, hnew⟩
  have hrank := rank_variablesFrom p.symbolTable name hvar (lines.take i) [] (List.not_mem_nil _)
  obtain ⟨hle, hrt⟩ := rank_take hocc
  rw [hrt, List.take_take, Nat.min_eq_left hle] at hrank
  have hx := hinv.2 name
  simp only [hnew, Bool.false_eq_true, if_false] at hx
  by_cases hm : name ∈ variablesFrom p.symbolTable [] (lines.take i)
  · simp only [hm, if_true, hbase, hrank] at hx
    exact ⟨_, parse_a_known hs hsym hx⟩
  · simp only [hm, if_false] at hx
    refine ⟨{ symbols := assign pᵢ.symbolTable.symbols name pᵢ.symbolTable.next_variable
              next_variable := pᵢ.symbolTable.next_variable + 1 }, ?_⟩
    rw [parse_a_new hs hsym hx, hinv.1, hbase, ← rank_of_not_mem hm, hrank]
    rfl

/-- C6, witness: after `@i`, the line `@sum` refers to the second new variable and
is given the address `16 + 1`. -/
theorem C6_variable_address_witness :
    ∃ t', Parser.parse_a
        { symbols := assign SymbolTable.init.symbols "i".data 16, next_variable := 17 }
        "@sum".data
      = .ok ({ type := 'A',
               value := 16 + ((variablesIn SymbolTable.init
                  (["@i".data, "@sum".data, "@i".data].take
                    (rank "@sum".data ["@i".data, "@sum".data, "@i".data]))).length : Int) },
          t') :=
  C6_variable_address (Parser.fresh SymbolTable.init)
    { symbolTable := { symbols := assign SymbolTable.init.symbols "i".data 16,
                       next_variable := 17 }
      counter := 0
      lines := []
      instructions := [{ type := 'A', value := 16 }] }
    ["@i".data, "@sum".data, "@i".data] "sum".data 1 rfl (by decide) (by decide) rfl
    (by decide)

/-! ## Labels -/

theorem clean_append (a b : List Str) : ∀ p : Parser,
    Parser.clean p (a ++ b) =
      match Parser.clean p a with
      | .error e => .error e
      | .ok p' => Parser.clean p' b := by
  induction a with
  | nil => intro p; rfl
  | cons raw rest ih =>
    intro p
    simp only [List.cons_append, Parser.clean]
    cases p.clean_line raw with
    | error e => rfl
    | ok p₁ => exact ih p₁

/-- The pass `clean` never throws, keeps the counter equal to the number of
emitted lines, and leaves the next variable address alone. -/
theorem clean_ok (file : List Str) : ∀ p : Parser,
    ∃ p', Parser.clean p file = .ok p' ∧
      (p.counter = (p.lines.length : Int) → p'.counter = (p'.lines.length : Int)) ∧
      p'.symbolTable.next_variable = p.symbolTable.next_variable := by
  induction file with
  | nil => exact fun p => ⟨p, rfl, id, rfl⟩
  | cons raw rest ih =>
    intro p
    have hstep : ∃ p₁, p.clean_line raw = .ok p₁ ∧
        (p.counter = (p.lines.length : Int) → p₁.counter = (p₁.lines.length : Int)) ∧
        p₁.symbolTable.next_variable = p.symbolTable.next_variable := by
      by_cases h0 : raw.length = 0
      · exact ⟨_, clean_line_empty p raw h0, id, rfl⟩
      · by_cases h1 : at0 (raw.filter (fun ch => ch ≠ ' ')) = '/'
        · exact ⟨_, clean_line_comment p raw h0 h1, id, rfl⟩
        · by_cases h2 : at0 (normalize raw) = '('
          · exact ⟨_, clean_line_label p raw h0 h1 h2, id, rfl⟩
          · refine ⟨_, clean_line_emit p raw h0 h1 h2, fun h => ?_, rfl⟩
            simp only [h, List.length_append, List.length_singleton]
            push_cast; ring
    obtain ⟨p₁, h1, hc1, hn1⟩ := hstep
    obtain ⟨p₂, h2, hc2, hn2⟩ := ih p₁
    exact ⟨p₂, by simp only [Parser.clean, h1, h2], fun h => hc2 (hc1 h), hn2.trans hn1⟩

/-- What the loop body of `clean` does to the symbol table. -/
theorem clean_line_lookup {p p' : Parser} {raw : Str} (h : p.clean_line raw = .ok p')
    (x : Str) :
    lookup p'.symbolTable.symbols x =
      if labelOf raw = some x then some p.counter else lookup p.symbolTable.symbols x := by
  by_cases h0 : raw.length = 0
  · rw [clean_line_empty p raw h0] at h
    simp only [Except.ok.injEq] at h
    subst h
    have : labelOf raw = none := by simp only [labelOf, h0, not_true_eq_false, false_and, if_false]
    simp only [this, reduceCtorEq, if_false]
  · by_cases h1 : at0 (raw.filter (fun ch => ch ≠ ' ')) = '/'
    · rw [clean_line_comment p raw h0 h1] at h
      simp only [Except.ok.injEq] at h
      subst h
      have : labelOf raw = none := by
        simp only [labelOf, h1, not_true_eq_false, false_and, and_false, if_false]
      simp only [this, reduceCtorEq, if_false]
    · by_cases h2 : at0 (normalize raw) = '('
      · rw [clean_line_label p raw h0 h1 h2] at h
        simp only [Except.ok.injEq] at h
        subst h
        have : labelOf raw
            = some (slice (normalize raw) 1 (subSize (normalize raw).length 2)) := by
          simp only [labelOf, h0, h1, h2, not_false_eq_true, and_self, if_true]
        simp only [this, Option.some.injEq, SymbolTable.add, lookup_assign]
      · rw [clean_line_emit p raw h0 h1 h2] at h
        simp only [Except.ok.injEq] at h
        subst h
        have : labelOf raw = none := by
          simp only [labelOf, h2, and_false, if_false]
        simp only [this, reduceCtorEq, if_false]

/-- Lines that do not declare `x` leave its entry alone. -/
theorem clean_lookup_of_not_declared (x : Str) (file : List Str) :
    ∀ {p p' : Parser}, (∀ raw ∈ file, labelOf raw ≠ some x) →
      Parser.clean p file = .ok p' →
      lookup p'.symbolTable.symbols x = lookup p.symbolTable.symbols x := by
  induction file with
  | nil =>
    intro p p' _ h
    simp only [Parser.clean, Except.ok.injEq] at h
    subst h
    rfl
  | cons raw rest ih =>
    intro p p' hno h
    simp only [Parser.clean] at h
    cases h1 : p.clean_line raw with
    | error e => simp [h1] at h
    | ok p₁ =>
      simp only [h1] at h
      rw [ih (fun r hr => hno r (List.mem_cons_of_mem _ hr)) h, clean_line_lookup h1 x,
        if_neg (hno raw (List.mem_cons_self _ _))]

theorem parse_all_append (a b : List Str) : ∀ p : Parser,
    Parser.parse_all p (a ++ b) =
      match Parser.parse_all p a with
      | .error e => .error e
      | .ok p' => Parser.parse_all p' b := by
  induction a with
  | nil => intro p; rfl
  | cons l rest ih =>
    intro p
    simp only [List.cons_append, Parser.parse_all]
    cases p.parse_line l with
    | error e => rfl
    | ok p₁ => exact ih p₁

/-- A line `(NAME)` whose name has no space and no `/` declares `NAME`. -/
theorem labelOf_paren (name : Str) (h1 : ' ' ∉ name) (h2 : '/' ∉ name) :
    labelOf ('(' :: name ++ [')']) = some name := by
  have hf : ('(' :: name ++ [')']).filter (fun ch => ch ≠ ' ') = '(' :: name ++ [')'] := by
    rw [List.filter_eq_self]
    intro ch hch
    have : ch ≠ ' ' := by
      rintro rfl
      simp only [List.cons_append, List.mem_cons, List.mem_append, List.mem_singleton] at hch
      rcases hch with hch | hch | hch
      · exact absurd hch (by decide)
      · exact h1 hch
      · exact absurd hch (by decide)
    simpa using this
  have hn : normalize ('(' :: name ++ [')']) = '(' :: name ++ [')'] := by
    unfold normalize
    rw [hf]
    have := takeWhile_append_stop ('(' :: name ++ [')']) [] (by
      simp only [List.cons_append, List.mem_cons, List.mem_append, List.mem_singleton]
      rintro (h | h | h)
      · exact absurd h (by decide)
      · exact h2 h
      · exact absurd h (by decide)) (Or.inl rfl)
    simpa using this
  have hlen : ¬ ('(' :: name ++ [')']).length = 0 := by simp
  have ha : ¬ at0 (('(' :: name ++ [')']).filter (fun ch => ch ≠ ' ')) = '/' := by
    rw [hf]; exact (by decide : ¬ '(' = '/')
  have hb : at0 (normalize ('(' :: name ++ [')'])) = '(' := by rw [hn]; rfl
  have hsl : slice ('(' :: name ++ [')']) 1 (subSize ('(' :: name ++ [')']).length 2)
      = name := by
    have : 2 ≤ ('(' :: name ++ [')']).length := by simp
    simp only [subSize, this, if_true, slice]
    simp
  unfold labelOf
  rw [if_pos ⟨hlen, ha, hb⟩, hn, hsl]

/-- C7, counterexample: in the program `D=A`, `(-1)`, `@-1` the label `-1` is
declared once, after one instruction, so it maps to 1; but `@-1` is parsed to
the number `-1`. -/
theorem C7_counterexample :
    labelOf "(-1)".data = some "-1".data ∧
    ∃ p, Parser.new ["D=A".data, "(-1)".data, "@-1".data] SymbolTable.init = .ok p ∧
      p.lines = ["D=A".data, "@-1".data] ∧
      lookup p.symbolTable.symbols "-1".data = some 1 ∧
      p.instructions[1]? = some { type := 'A', value := -1 } :=
  ⟨by decide, _, rfl, by decide, by decide, by decide⟩

/-- C7, amended: let a program declare the label `name` exactly once, by the line
`decl`, and let `name` be a symbol that `std::stoi` does not convert.  The label
pass does not throw; the declaration line emits no cleaned line, leaves the
counter alone and maps `name` to `n`, the number of cleaned lines emitted before
it; and whenever the parsing loop reaches a cleaned line `@name`, before or
after the declaration, it appends an A-instruction of value `n` and leaves the
symbol table as it is, so no variable is allocated for `name`. -/
theorem C7_label_value (table : SymbolTable) (pre post : List Str) (decl name : Str)
    (hdecl : labelOf decl = some name)
    (honce : ∀ raw ∈ pre ++ post, labelOf raw ≠ some name)
    (hsym : stoi name = .error .invalid_argument) :
    ∃ pn pc, Parser.clean (Parser.fresh table) pre = .ok pn ∧
      Parser.clean (Parser.fresh table) (pre ++ decl :: post) = .ok pc ∧
      pn.clean_line decl
        = .ok { pn with symbolTable := pn.symbolTable.add name (pn.lines.length : Int) } ∧
      ∀ (i : Nat) (pᵢ : Parser), pc.lines[i]? = some ('@' :: name) →
        Parser.parse_all pc (pc.lines.take i) = .ok pᵢ →
        Parser.parse_all pc (pc.lines.take (i + 1))
          = .ok { pᵢ with instructions := pᵢ.instructions ++
                    [{ type := 'A', value := (pn.lines.length : Int) }] } := by
  obtain ⟨pn, hpn, hcnt, -⟩ := clean_ok pre (Parser.fresh table)
  have hcount : pn.counter = (pn.lines.length : Int) := hcnt rfl
  -- the declaration line
  have hlab : ¬ decl.length = 0 ∧ ¬ at0 (decl.filter (fun ch => ch ≠ ' ')) = '/'
      ∧ at0 (normalize decl) = '(' := by
    by_contra hc
    simp only [labelOf, if_neg hc, reduceCtorEq] at hdecl
  have hname : slice (normalize decl) 1 (subSize (normalize decl).length 2) = name := by
    simp only [labelOf, if_pos hlab, Option.some.injEq] at hdecl
    exact hdecl
  have hstep : pn.clean_line decl
      = .ok { pn with symbolTable := pn.symbolTable.add name (pn.lines.length : Int) } := by
    rw [clean_line_label pn decl hlab.1 hlab.2.1 hlab.2.2, hname, hcount]
  -- the rest of the label pass
  obtain ⟨pc, hpc, -, -⟩ := clean_ok post
    { pn with symbolTable := pn.symbolTable.add name (pn.lines.length : Int) }
  have hfull : Parser.clean (Parser.fresh table) (pre ++ decl :: post) = .ok pc := by
    rw [clean_append, hpn]
    simp only [Parser.clean, hstep, hpc]
  have hlook : lookup pc.symbolTable.symbols name = some (pn.lines.length : Int) := by
    rw [clean_lookup_of_not_declared name post
      (fun r hr => honce r (List.mem_append_right _ hr)) hpc]
    simp only [SymbolTable.add, lookup_assign, if_true]
  refine ⟨pn, pc, hpn, hfull, hstep, ?_⟩
  intro i pᵢ hocc hpre
  have hinv := varInv_parse_all (varInv_start pc.symbolTable) hpre
  have hx := hinv.2 name
  rw [if_pos (contains_eq_true.mpr ⟨_, hlook⟩), hlook] at hx
  have hs : substr ('@' :: name) 1 none = .ok name := substr_one rfl
  have hline : pᵢ.parse_line ('@' :: name)
      = .ok { pᵢ with instructions := pᵢ.instructions ++
                [{ type := 'A', value := (pn.lines.length : Int) }] } := by
    have hat : at0 ('@' :: name) = '@' := rfl
    simp only [Parser.parse_line, hat, if_true, parse_a_known hs hsym hx]
  have htake : pc.lines.take (i + 1) = pc.lines.take i ++ ['@' :: name] := by
    rw [List.take_succ, hocc]
    rfl
  rw [htake, parse_all_append, hpre]
  simp only [Parser.parse_all, hline]

/-- C7, witness: in `@LOOP`, `D=M`, `(LOOP)`, `0;JMP` the label is declared after
two instructions, and the forward reference `@LOOP` is parsed to 2. -/
theorem C7_label_value_witness :
    ∃ pn pc, Parser.clean (Parser.fresh SymbolTable.init) ["@LOOP".data, "D=M".data] = .ok pn ∧
      Parser.clean (Parser.fresh SymbolTable.init)
        (["@LOOP".data, "D=M".data] ++ "(LOOP)".data :: ["0;JMP".data]) = .ok pc ∧
      pn.clean_line "(LOOP)".data
        = .ok { pn with symbolTable := pn.symbolTable.add "LOOP".data (pn.lines.length : Int) } ∧
      ∀ (i : Nat) (pᵢ : Parser), pc.lines[i]? = some ('@' :: "LOOP".data) →
        Parser.parse_all pc (pc.lines.take i) = .ok pᵢ →
        Parser.parse_all pc (pc.lines.take (i + 1))
          = .ok { pᵢ with instructions := pᵢ.instructions ++
                    [{ type := 'A', value := (pn.lines.length : Int) }] } :=
  C7_label_value SymbolTable.init ["@LOOP".data, "D=M".data] ["0;JMP".data]
    "(LOOP)".data "LOOP".data (by decide) (by decide) (by decide)

/-! ## The scenarios of the specification, run through the whole program -/

/-- Symbol resolution with a forward label reference, variable allocation,
spaces and an inline comment, predefined symbols and an unconditional jump. -/
theorem assemble_scenarios :
    assemble
      [ "@R0".data, "D=M".data, "@R1".data, "D=D-M".data, "@OUTPUT_FIRST".data,
        "D;JGT".data, "@i".data, "@sum".data, "@i".data,
        "   D = D + A   // add them".data, "(OUTPUT_FIRST)".data, "// a comment".data,
        "".data, "@SCREEN".data, "@KBD".data, "M=D+1".data, "0;JMP".data ]
    = .ok
      [ "0000000000000000".data, "1111110000010000".data, "0000000000000001".data,
        "1111010011010000".data, "0000000000001010".data, "1110001100000001".data,
        "0000000000010000".data, "0000000000010001".data, "0000000000010000".data,
        "1110000010010000".data, "0100000000000000".data, "0110000000000000".data,
        "1110011111001000".data, "1110101010000111".data ] := by
  decide

/-- A line of the full shape `dest=comp;jump` yields a word of 10 characters:
its comp field is mis-parsed and misses the comp table. -/
theorem assemble_full_shape :
    assemble ["D=M;JGT".data] = .ok ["1111010001".data] := by
  decide

/-- A line of spaces only is emitted as an empty cleaned line, on which the
encoder throws. -/
theorem assemble_blank_line :
    assemble ["   ".data] = .error .out_of_range := by
  decide

/-! ## The predefined symbols -/

/-- C13: a freshly constructed `SymbolTable` maps `SP`, `LCL`, `ARG`, `THIS`,
`THAT` to 0..4, `Ri` to `i` for every `i` in 0..15, `SCREEN` to 16384 and `KBD`
to 24576, and its next variable address is 16; `@SCREEN` is parsed and encoded
to `0100000000000000` and `@KBD` to `0110000000000000`. -/
theorem C13_fresh_symbol_table :
    lookup SymbolTable.init.symbols "SP".data = some 0 ∧
    lookup SymbolTable.init.symbols "LCL".data = some 1 ∧
    lookup SymbolTable.init.symbols "ARG".data = some 2 ∧
    lookup SymbolTable.init.symbols "THIS".data = some 3 ∧
    lookup SymbolTable.init.symbols "THAT".data = some 4 ∧
    (∀ i ∈ List.range 16,
      lookup SymbolTable.init.symbols ('R' :: (Nat.repr i).data) = some (i : Int)) ∧
    lookup SymbolTable.init.symbols "R0".data = some 0 ∧
    lookup SymbolTable.init.symbols "R15".data = some 15 ∧
    lookup SymbolTable.init.symbols "SCREEN".data = some 16384 ∧
    lookup SymbolTable.init.symbols "KBD".data = some 24576 ∧
    SymbolTable.init.next_variable = 16 ∧
    SymbolTable.init.symbols.length = 23 ∧
    assemble ["@SCREEN".data] = .ok ["0100000000000000".data] ∧
    assemble ["@KBD".data] = .ok ["0110000000000000".data] := by
  decide

/-! ## Tabs and spaces -/

theorem normalize_of_plain {raw : Str} (h1 : ' ' ∉ raw) (h2 : '/' ∉ raw) :
    normalize raw = raw := by
  have hf : raw.filter (fun ch => ch ≠ ' ') = raw := by
    rw [List.filter_eq_self]
    intro ch hch
    have : ch ≠ ' ' := fun e => h1 (e ▸ hch)
    exact decide_eq_true this
  unfold normalize
  rw [hf]
  have := takeWhile_append_stop raw [] h2 (Or.inl rfl)
  rwa [List.append_nil] at this

/-- The word `c_code` returns depends on the tables only through what their
reads return. -/
theorem c_code_word (c : Code) (ins : Instruction) (hc : c.Pristine) :
    (Code.c_code c ins).map Prod.fst =
      match compField (entry Code.init.comp_codes) ins.comp with
      | .error e => .error e
      | .ok (a, bits) =>
        .ok ("111".data ++ [a] ++ bits ++ entry Code.init.dest_codes ins.dest
              ++ entry Code.init.jump_codes ins.jump) := by
  have hcomp : entry c.comp_codes = entry Code.init.comp_codes := funext hc.2.1
  rw [c_code_eq, hcomp, hc.1 ins.dest, hc.2.2 ins.jump]
  cases compField (entry Code.init.comp_codes) ins.comp with
  | error e => rfl
  | ok r => rfl

theorem machine_code_word (c : Code) (ins : Instruction) (hc : c.Pristine) :
    (Code.machine_code c ins).map Prod.fst
      = (Code.machine_code Code.init ins).map Prod.fst := by
  unfold Code.machine_code
  by_cases ht : ins.type = 'A'
  · simp only [ht, if_true]
    rfl
  · simp only [ht, if_false]
    rw [c_code_word c ins hc, c_code_word Code.init ins pristine_init]

theorem machine_code_pristine {c c' : Code} {ins : Instruction} {w : Str}
    (hc : c.Pristine) (h : Code.machine_code c ins = .ok (w, c')) : c'.Pristine := by
  unfold Code.machine_code at h
  by_cases ht : ins.type = 'A'
  · simp only [ht, if_true, Except.ok.injEq, Prod.mk.injEq] at h
    rw [← h.2]
    exact hc
  · simp only [ht, if_false] at h
    exact c_code_pristine c c' ins w hc h

theorem encode_all_pristine (seq : List Instruction) :
    ∀ {c c' : Code} {ws : List Str}, c.Pristine → encode_all c seq = .ok (ws, c') →
      c'.Pristine := by
  induction seq with
  | nil =>
    intro c c' ws hc h
    simp only [encode_all, Except.ok.injEq, Prod.mk.injEq] at h
    rw [← h.2]
    exact hc
  | cons ins rest ih =>
    intro c c' ws hc h
    simp only [encode_all] at h
    cases h1 : c.machine_code ins with
    | error e => simp [h1] at h
    | ok r =>
      obtain ⟨w, c₁⟩ := r
      simp only [h1] at h
      cases h2 : encode_all c₁ rest with
      | error e => simp [h2] at h
      | ok r₂ =>
        obtain ⟨ws₂, c₂⟩ := r₂
        simp only [h2, Except.ok.injEq, Prod.mk.injEq] at h
        rw [← h.2]
        exact ih (machine_code_pristine hc h1) h2

/-- C20: encoding is history-independent: after any sequence of instructions
encoded without failure on a `Code` object that started fresh, `machine_code`
returns for every instruction the same word, or the same failure, as a freshly
constructed `Code` object does. -/
theorem C20_history_independent (seq : List Instruction) (ws : List Str) (c : Code)
    (ins : Instruction) (h : encode_all Code.init seq = .ok (ws, c)) :
    (Code.machine_code c ins).map Prod.fst
      = (Code.machine_code Code.init ins).map Prod.fst :=
  machine_code_word c ins (encode_all_pristine seq pristine_init h)

/-- C20, witness: encoding `D=M` inserts the key `M` into the comp table; `M=M+1`
is then encoded as on a fresh object. -/
theorem C20_history_independent_witness :
    encode_all Code.init [{ type := 'C', dest := "D".data, comp := "M".data }]
      = .ok (["1111110000010000".data],
          { dest_codes := Code.init.dest_codes
            comp_codes := Code.init.comp_codes ++ [("M".data, [])]
            jump_codes := Code.init.jump_codes }) ∧
    (Code.machine_code
        { dest_codes := Code.init.dest_codes
          comp_codes := Code.init.comp_codes ++ [("M".data, [])]
          jump_codes := Code.init.jump_codes }
        { type := 'C', dest := "M".data, comp := "M+1".data }).map Prod.fst
      = (Code.machine_code Code.init
          { type := 'C', dest := "M".data, comp := "M+1".data }).map Prod.fst :=
  ⟨by decide,
    C20_history_independent [{ type := 'C', dest := "D".data, comp := "M".data }]
      ["1111110000010000".data] _ _ (by decide)⟩

/-! ## Legal instructions: the word and its injectivity -/

theorem type_c_ne_a {ins : Instruction} (ht : ins.type = 'C') : ¬ ins.type = 'A' := by
  rw [ht]; decide

/-- The word of a C-instruction with legal fields, on any `Code` object whose
tables read like the fresh ones. -/
theorem machine_code_legal {c : Code} {ins : Instruction} (hc : c.Pristine)
    (hA : ¬ ins.type = 'A') (hm : ins.comp ∈ compMnemonics) :
    (Code.machine_code c ins).map Prod.fst
      = .ok ("111".data ++ compCode ins.comp ++ entry Code.init.dest_codes ins.dest
              ++ entry Code.init.jump_codes ins.jump) := by
  simp only [Code.machine_code, hA, if_false]
  rw [c_code_word c ins hc, (compField_legal ins.comp hm).1]
  rfl

theorem compCode_length : ∀ comp ∈ compMnemonics, (compCode comp).length = 7 := by
  decide

set_option maxRecDepth 4000 in
theorem compCode_injective : ∀ x ∈ compMnemonics, ∀ y ∈ compMnemonics,
    compCode x = compCode y → x = y := by
  decide

theorem destCode_injective : ∀ x ∈ destMnemonics, ∀ y ∈ destMnemonics,
    entry Code.init.dest_codes x = entry Code.init.dest_codes y → x = y := by
  decide

theorem jumpCode_injective : ∀ x ∈ jumpMnemonics, ∀ y ∈ jumpMnemonics,
    entry Code.init.jump_codes x = entry Code.init.jump_codes y → x = y := by
  decide

theorem legal_a_value_toNat {ins : Instruction} (h0 : 0 ≤ ins.value)
    (h1 : ins.value ≤ 32767) :
    ((ins.value % 2 ^ 64).toNat : Int) = ins.value ∧ (ins.value % 2 ^ 64).toNat < 32768 := by
  have hm : ins.value % 2 ^ 64 = ins.value := Int.emod_eq_of_lt h0 (by omega)
  rw [hm]
  have : (ins.value.toNat : Int) = ins.value := Int.toNat_of_nonneg h0
  exact ⟨this, by omega⟩

/-- An A-word and a C-word of legal instructions differ in their first
character. -/
theorem a_word_ne_c_word {c₁ c₂ c₁' c₂' : Code} {i₁ i₂ : Instruction} {w : Str}
    (h2 : c₂.Pristine) (ha : i₁.type = 'A' ∧ 0 ≤ i₁.value ∧ i₁.value ≤ 32767)
    (hb : i₂.type = 'C' ∧ i₂.dest ∈ destMnemonics ∧ i₂.comp ∈ compMnemonics
      ∧ i₂.jump ∈ jumpMnemonics)
    (e₁ : Code.machine_code c₁ i₁ = .ok (w, c₁'))
    (e₂ : Code.machine_code c₂ i₂ = .ok (w, c₂')) : False := by
  rw [machine_code_a c₁ i₁ ha.1] at e₁
  simp only [Except.ok.injEq, Prod.mk.injEq] at e₁
  have hw := machine_code_legal h2 (type_c_ne_a hb.1) hb.2.2.1
  rw [e₂] at hw
  simp only [Except.map, Except.ok.injEq] at hw
  have hhead : w.head? = some '0' := by
    rw [← e₁.1, head_bitsMSB16]
    have := (legal_a_value_toNat ha.2.1 ha.2.2).2
    omega
  rw [hw] at hhead
  simp at hhead

/-- C19: `Code::machine_code` is injective on legal instructions: when two legal
instructions (A-instructions with a value in `[0, 32767]`, C-instructions with
legal dest, comp and jump) are encoded to the same word, they are of the same
variant, with the same value or with the same dest, comp and jump; in
particular the 28 comp mnemonics have pairwise distinct 7-bit codes. -/
theorem C19_machine_code_injective (c₁ c₂ c₁' c₂' : Code) (i₁ i₂ : Instruction) (w : Str)
    (h1 : c₁.Pristine) (h2 : c₂.Pristine) (l₁ : Legal i₁) (l₂ : Legal i₂)
    (e₁ : Code.machine_code c₁ i₁ = .ok (w, c₁'))
    (e₂ : Code.machine_code c₂ i₂ = .ok (w, c₂')) :
    i₁.type = i₂.type ∧
    (i₁.type = 'A' → i₁.value = i₂.value) ∧
    (i₁.type = 'C' → i₁.dest = i₂.dest ∧ i₁.comp = i₂.comp ∧ i₁.jump = i₂.jump) ∧
    (compMnemonics.map compCode).Nodup := by
  refine ⟨?_, ?_, ?_, by decide⟩
  · rcases l₁ with ha | ha <;> rcases l₂ with hb | hb
    · rw [ha.1, hb.1]
    · exact (a_word_ne_c_word h2 ha hb e₁ e₂).elim
    · exact (a_word_ne_c_word h1 hb ha e₂ e₁).elim
    · rw [ha.1, hb.1]
  · intro hA
    rcases l₁ with ha | ha
    · rcases l₂ with hb | hb
      · rw [machine_code_a c₁ i₁ ha.1] at e₁
        rw [machine_code_a c₂ i₂ hb.1] at e₂
        simp only [Except.ok.injEq, Prod.mk.injEq] at e₁ e₂
        have hv := congrArg binValue (e₁.1.trans e₂.1.symm)
        rw [binValue_bitsMSB, binValue_bitsMSB] at hv
        obtain ⟨ha1, ha2⟩ := legal_a_value_toNat ha.2.1 ha.2.2
        obtain ⟨hb1, hb2⟩ := legal_a_value_toNat hb.2.1 hb.2.2
        omega
      · exact (a_word_ne_c_word h2 ha hb e₁ e₂).elim
    · rw [ha.1] at hA
      exact absurd hA (by decide)
  · intro hC
    rcases l₁ with ha | ha
    · rw [ha.1] at hC
      exact absurd hC (by decide)
    · rcases l₂ with hb | hb
      · exact (a_word_ne_c_word h1 hb ha e₂ e₁).elim
      · have hw₁ := machine_code_legal h1 (type_c_ne_a ha.1) ha.2.2.1
        have hw₂ := machine_code_legal h2 (type_c_ne_a hb.1) hb.2.2.1
        rw [e₁] at hw₁
        rw [e₂] at hw₂
        simp only [Except.map, Except.ok.injEq] at hw₁ hw₂
        have heq := hw₁.symm.trans hw₂
        have hj := List.append_inj' heq (by
          rw [jumpField_legal _ ha.2.2.2, jumpField_legal _ hb.2.2.2])
        have hd := List.append_inj' hj.1 (by
          rw [destField_legal _ ha.2.1, destField_legal _ hb.2.1])
        have hcm := List.append_inj' hd.1 (by
          rw [compCode_length _ ha.2.2.1, compCode_length _ hb.2.2.1])
        exact ⟨destCode_injective _ ha.2.1 _ hb.2.1 hd.2,
          compCode_injective _ ha.2.2.1 _ hb.2.2.1 hcm.2,
          jumpCode_injective _ ha.2.2.2 _ hb.2.2.2 hj.2⟩

/-- C19, witness: on fresh `Code` objects the word `1110011111001000` only comes
from `M=D+1`. -/
theorem C19_machine_code_injective_witness :
    ({ type := 'C', dest := "M".data, comp := "D+1".data } : Instruction).type
      = ({ type := 'C', dest := "M".data, comp := "D+1".data } : Instruction).type ∧
    (({ type := 'C', dest := "M".data, comp := "D+1".data } : Instruction).type = 'A' →
      ({ type := 'C', dest := "M".data, comp := "D+1".data } : Instruction).value
        = ({ type := 'C', dest := "M".data, comp := "D+1".data } : Instruction).value) ∧
    (({ type := 'C', dest := "M".data, comp := "D+1".data } : Instruction).type = 'C' →
      "M".data = "M".data ∧ "D+1".data = "D+1".data ∧ "null".data = "null".data) ∧
    (compMnemonics.map compCode).Nodup :=
  C19_machine_code_injective Code.init Code.init Code.init Code.init
    { type := 'C', dest := "M".data, comp := "D+1".data }
    { type := 'C', dest := "M".data, comp := "D+1".data }
    "1110011111001000".data pristine_init pristine_init
    (Or.inr ⟨rfl, by decide, by decide, by decide⟩)
    (Or.inr ⟨rfl, by decide, by decide, by decide⟩)
    (by decide) (by decide)

/-! ## The shape of every word -/

theorem entry_nil_or_mem (m : List (Str × Str)) (k : Str) :
    entry m k = [] ∨ ∃ e ∈ m, e.1 = k ∧ e.2 = entry m k := by
  induction m with
  | nil => left; rfl
  | cons p r ih =>
    obtain ⟨a, b⟩ := p
    by_cases hak : a = k
    · right
      exact ⟨(a, b), List.mem_cons_self _ _, hak, by simp [entry, lookup, hak]⟩
    · have he : entry ((a, b) :: r) k = entry r k := by simp [entry, lookup, hak]
      rw [he]
      rcases ih with h | ⟨e, he1, he2⟩
      · left; exact h
      · right; exact ⟨e, List.mem_cons_of_mem _ he1, he2⟩

theorem comp_table_shape : ∀ e ∈ Code.init.comp_codes,
    e.2.length = 6 ∧ ∀ ch ∈ e.2, ch = '0' ∨ ch = '1' := by
  decide

theorem dest_table_shape : ∀ e ∈ Code.init.dest_codes,
    e.2.length = 3 ∧ ∀ ch ∈ e.2, ch = '0' ∨ ch = '1' := by
  decide

theorem jump_table_shape : ∀ e ∈ Code.init.jump_codes,
    e.2.length = 3 ∧ ∀ ch ∈ e.2, ch = '0' ∨ ch = '1' := by
  decide

/-- What a read of a table returns is a binary string no longer than the
entries of the table. -/
theorem entry_shape {m : List (Str × Str)} {n : Nat}
    (hm : ∀ e ∈ m, e.2.length = n ∧ ∀ ch ∈ e.2, ch = '0' ∨ ch = '1') (k : Str) :
    (entry m k).length ≤ n ∧ ∀ ch ∈ entry m k, ch = '0' ∨ ch = '1' := by
  rcases entry_nil_or_mem m k with h | ⟨e, he, -, h⟩
  · rw [h]; exact ⟨Nat.zero_le _, fun ch hch => absurd hch (List.not_mem_nil _)⟩
  · rw [← h]; exact ⟨le_of_eq (hm e he).1, (hm e he).2⟩

theorem compField_shape {comp : Str} {a : Char} {bits : Str}
    (h : compField (entry Code.init.comp_codes) comp = .ok (a, bits)) :
    (a = '0' ∨ a = '1') ∧ bits.length ≤ 6 ∧ ∀ ch ∈ bits, ch = '0' ∨ ch = '1' := by
  unfold compField at h
  by_cases h0 : entry Code.init.comp_codes comp = []
  · simp only [h0, if_true] at h
    cases hr : replace comp (find comp 'M') 1 1 'A' with
    | error e => simp [hr] at h
    | ok comp' =>
      simp only [hr, Except.ok.injEq, Prod.mk.injEq] at h
      rw [← h.1, ← h.2]
      exact ⟨Or.inr rfl, entry_shape comp_table_shape comp'⟩
  · simp only [h0, if_false, Except.ok.injEq, Prod.mk.injEq] at h
    rw [← h.1, ← h.2]
    exact ⟨Or.inl rfl, entry_shape comp_table_shape comp⟩

theorem exists_of_map_fst {α β : Type} {r : Except Exn (α × β)} {a : α}
    (h : r.map Prod.fst = .ok a) : ∃ b, r = .ok (a, b) := by
  cases r with
  | error e => simp [Except.map] at h
  | ok p =>
    obtain ⟨x, y⟩ := p
    simp only [Except.map, Except.ok.injEq] at h
    exact ⟨y, by rw [h]⟩

/-- C12, counterexample: the program `X=D` is assembled to the single output
line `1110001100000`, of 13 characters. -/
theorem C12_counterexample :
    assemble ["X=D".data] = .ok ["1110001100000".data] ∧
    ("1110001100000".data).length = 13 := by
  decide

/-- C12, amended: every string that `Code::machine_code` returns consists only
of the characters `'0'` and `'1'` and has at most 16 of them; for every
A-instruction, and for every C-instruction whose dest, comp and jump are table
mnemonics, `machine_code` returns and the string has length exactly 16. -/
theorem C12_word_shape (c : Code) (ins : Instruction) (hc : c.Pristine) :
    (∀ w c', Code.machine_code c ins = .ok (w, c') →
      (∀ ch ∈ w, ch = '0' ∨ ch = '1') ∧ w.length ≤ 16) ∧
    ((ins.type = 'A' ∨ (ins.dest ∈ destMnemonics ∧ ins.comp ∈ compMnemonics
        ∧ ins.jump ∈ jumpMnemonics)) →
      ∃ w c', Code.machine_code c ins = .ok (w, c') ∧ w.length = 16) := by
  constructor
  · intro w c' h
    by_cases ht : ins.type = 'A'
    · rw [machine_code_a c ins ht] at h
      simp only [Except.ok.injEq, Prod.mk.injEq] at h
      rw [← h.1]
      exact ⟨bitsMSB_binary _ _, le_of_eq (bitsMSB_length _ _)⟩
    · have hw : (Code.machine_code c ins).map Prod.fst = .ok w := by rw [h]; rfl
      simp only [Code.machine_code, ht, if_false] at hw
      rw [c_code_word c ins hc] at hw
      cases hf : compField (entry Code.init.comp_codes) ins.comp with
      | error e => simp [hf] at hw
      | ok r =>
        obtain ⟨a, bits⟩ := r
        simp only [hf, Except.ok.injEq] at hw
        obtain ⟨ha, hb1, hb2⟩ := compField_shape hf
        obtain ⟨hd1, hd2⟩ := entry_shape dest_table_shape ins.dest
        obtain ⟨hj1, hj2⟩ := entry_shape jump_table_shape ins.jump
        rw [← hw]
        constructor
        · intro ch hch
          simp only [List.mem_append, List.mem_singleton] at hch
          rcases hch with (((hch | hch) | hch) | hch) | hch
          · right
            have : ch ∈ ['1', '1', '1'] := hch
            simp only [List.mem_cons, List.mem_singleton, or_self, List.not_mem_nil,
              or_false] at this
            exact this
          · rw [hch]; exact ha
          · exact hb2 ch hch
          · exact hd2 ch hch
          · exact hj2 ch hch
        · simp only [List.length_append, List.length_singleton, List.length_cons,
            List.length_nil]
          omega
  · rintro (ht | ⟨hd, hm, hj⟩)
    · exact ⟨_, c, machine_code_a c ins ht, bitsMSB_length _ _⟩
    · by_cases ht : ins.type = 'A'
      · exact ⟨_, c, machine_code_a c ins ht, bitsMSB_length _ _⟩
      · obtain ⟨c', hc'⟩ := exists_of_map_fst (machine_code_legal hc ht hm)
        refine ⟨_, c', hc', ?_⟩
        simp only [List.length_append, compCode_length _ hm, destField_legal _ hd,
          jumpField_legal _ hj]
        rfl

/-- C12, witness: on a fresh `Code` object the word of `D=M` has 16 binary
characters. -/
theorem C12_word_shape_witness :
    (∀ w c', Code.machine_code Code.init { type := 'C', dest := "D".data, comp := "M".data }
        = .ok (w, c') →
      (∀ ch ∈ w, ch = '0' ∨ ch = '1') ∧ w.length ≤ 16) ∧
    ((({ type := 'C', dest := "D".data, comp := "M".data } : Instruction).type = 'A' ∨
        ("D".data ∈ destMnemonics ∧ "M".data ∈ compMnemonics
          ∧ "null".data ∈ jumpMnemonics)) →
      ∃ w c', Code.machine_code Code.init { type := 'C', dest := "D".data, comp := "M".data }
        = .ok (w, c') ∧ w.length = 16) :=
  C12_word_shape Code.init { type := 'C', dest := "D".data, comp := "M".data } pristine_init

/-! ## Unknown comp mnemonics -/

theorem find_getElem {s : Str} {c : Char} {i : Nat} (h : find s c = some i) :
    s = s.take i ++ c :: s.drop (i + 1) ∧ c ∉ s.take i := by
  induction s generalizing i with
  | nil => simp [find] at h
  | cons x r ih =>
    by_cases hx : x = c
    · simp only [find, hx, if_true, Option.some.injEq] at h
      subst h
      simp [hx]
    · simp only [find, hx, if_false, Option.map_eq_some'] at h
      obtain ⟨j, hj, rfl⟩ := h
      obtain ⟨h1, h2⟩ := ih hj
      have hx' : ¬ c = x := fun e => hx e.symm
      constructor
      · rw [List.take_succ_cons, List.drop_succ_cons, List.cons_append, ← h1]
      · rw [List.take_succ_cons]
        simp only [List.mem_cons, hx', false_or]
        exact h2

theorem subst_of_not_mem {a b : Char} {s : Str} (h : a ∉ s) : subst a b s = s := by
  induction s with
  | nil => rfl
  | cons x r ih =>
    have hx : ¬ x = a := fun e => h (by simp [e])
    have hr : a ∉ r := fun e => h (List.mem_cons_of_mem _ e)
    have := ih hr
    unfold subst at this ⊢
    rw [List.map_cons, if_neg hx, this]

theorem subst_append (a b : Char) (s t : Str) :
    subst a b (s ++ t) = subst a b s ++ subst a b t := by
  unfold subst
  exact List.map_append _ _ _

theorem compKeys_no_M : ∀ k ∈ compKeys, 'M' ∉ k := by
  decide

theorem mem_compKeys_of_entry {k : Str} (h : entry Code.init.comp_codes k ≠ []) :
    k ∈ compKeys := by
  rcases entry_nil_or_mem Code.init.comp_codes k with h0 | ⟨e, he, hk, -⟩
  · exact absurd h0 h
  · rw [← hk]
    exact List.mem_map_of_mem Prod.fst he

/-- When the first `M` of a comp field is replaced by `A` and the result is a
table key, the result is the field with `A` written for every `M`. -/
theorem replaced_eq_subst {comp : Str} {p : Nat} (hf : find comp 'M' = some p)
    (hk : comp.take p ++ 'A' :: comp.drop (p + 1) ∈ compKeys) :
    comp.take p ++ 'A' :: comp.drop (p + 1) = subst 'M' 'A' comp := by
  obtain ⟨hsplit, hbefore⟩ := find_getElem hf
  have hno := compKeys_no_M _ hk
  have hafter : 'M' ∉ comp.drop (p + 1) := by
    intro hm
    exact hno (List.mem_append_right _ (List.mem_cons_of_mem _ hm))
  have hs : subst 'M' 'A' comp
      = subst 'M' 'A' (comp.take p) ++ subst 'M' 'A' ('M' :: comp.drop (p + 1)) := by
    rw [← subst_append, ← hsplit]
  rw [hs, subst_of_not_mem hbefore]
  have : subst 'M' 'A' ('M' :: comp.drop (p + 1)) = 'A' :: comp.drop (p + 1) := by
    have h2 := subst_of_not_mem (b := 'A') hafter
    unfold subst at h2 ⊢
    rw [List.map_cons, h2]
    rfl
  rw [this]

/-- C17, counterexample: the comp field `D+D` is not a legal mnemonic and has no
`M`; `c_code` fails on it with `std::out_of_range`. -/
theorem C17_counterexample :
    "D+D".data ∉ compKeys ∧ subst 'M' 'A' "D+D".data ∉ compKeys ∧
    Code.c_code Code.init { type := 'C', dest := "D".data, comp := "D+D".data }
      = .error .out_of_range := by
  decide

/-- C17, amended: for a C-instruction whose comp field is not a table key and is
not one after writing `A` for `M`: when the field contains an `M`, `c_code`
does not fail and returns `1111` followed by the dest and jump bits only, the
six comp bits being replaced by the empty string, a word of at most 10
characters; when the field contains no `M`, `c_code` fails with
`std::out_of_range`. -/
theorem C17_unknown_comp (c : Code) (ins : Instruction) (hc : c.Pristine)
    (h1 : ins.comp ∉ compKeys) (h2 : subst 'M' 'A' ins.comp ∉ compKeys) :
    ('M' ∈ ins.comp →
      ∃ c', Code.c_code c ins
          = .ok ("1111".data ++ entry Code.init.dest_codes ins.dest
                  ++ entry Code.init.jump_codes ins.jump, c') ∧
        ("1111".data ++ entry Code.init.dest_codes ins.dest
          ++ entry Code.init.jump_codes ins.jump).length ≤ 10) ∧
    ('M' ∉ ins.comp → Code.c_code c ins = .error .out_of_range) := by
  have h0 : entry Code.init.comp_codes ins.comp = [] := by
    by_contra hne
    exact h1 (mem_compKeys_of_entry hne)
  have hcomp : entry c.comp_codes = entry Code.init.comp_codes := funext hc.2.1
  constructor
  · intro hM
    obtain ⟨p, hp⟩ := Option.ne_none_iff_exists'.mp (find_isSome.mpr hM)
    have hlt := (find_eq_some hp).1
    have hnot : ¬ p > ins.comp.length := by omega
    have hrep : entry Code.init.comp_codes
        (ins.comp.take p ++ 'A' :: ins.comp.drop (p + 1)) = [] := by
      by_contra hne
      have hk := mem_compKeys_of_entry hne
      rw [replaced_eq_subst hp hk] at hk
      exact h2 hk
    have hfield : compField (entry Code.init.comp_codes) ins.comp = .ok ('1', []) := by
      unfold compField
      simp only [h0, if_true, hp, replace, hnot, if_false, List.replicate_one,
        List.append_assoc, List.singleton_append, hrep]
    have hw := c_code_word c ins hc
    rw [hfield] at hw
    obtain ⟨c', hc'⟩ := exists_of_map_fst hw
    refine ⟨c', ?_, ?_⟩
    · rw [hc']; rfl
    · have hd := (entry_shape dest_table_shape ins.dest).1
      have hj := (entry_shape jump_table_shape ins.jump).1
      simp only [List.length_append, List.length_cons, List.length_nil]
      omega
  · intro hM
    have hnone : find ins.comp 'M' = none := find_eq_none.mpr hM
    rw [c_code_eq, hcomp]
    simp only [compField, h0, if_true, hnone, replace]

/-- C17, witness: the comp field `M+M` is not legal and contains an `M`; the word
of `D=M+M` is `1111010000`. -/
theorem C17_unknown_comp_witness :
    ('M' ∈ "M+M".data →
      ∃ c', Code.c_code Code.init { type := 'C', dest := "D".data, comp := "M+M".data }
          = .ok ("1111".data ++ entry Code.init.dest_codes "D".data
                  ++ entry Code.init.jump_codes "null".data, c') ∧
        ("1111".data ++ entry Code.init.dest_codes "D".data
          ++ entry Code.init.jump_codes "null".data).length ≤ 10) ∧
    ('M' ∉ "M+M".data →
      Code.c_code Code.init { type := 'C', dest := "D".data, comp := "M+M".data }
        = .error .out_of_range) :=
  C17_unknown_comp Code.init { type := 'C', dest := "D".data, comp := "M+M".data }
    pristine_init (by decide) (by decide)

/-! ## The two branches of `parse_a` -/

theorem stoi_invalid_iff (text : Str) :
    stoi text = .error .invalid_argument ↔ numericHead text = false := by
  simp only [stoi, numericHead]
  generalize takeSign (text.dropWhile isspace) = body
  obtain ⟨neg, rest⟩ := body
  cases rest with
  | nil => simp only [List.takeWhile_nil, if_true]
  | cons ch r =>
    cases hd : ch.isDigit with
    | false => simp only [List.takeWhile_cons, hd, Bool.false_eq_true, if_false, if_true]
    | true =>
      simp only [List.takeWhile_cons, hd, if_true, reduceCtorEq, if_false,
        Bool.true_eq_false, iff_false]
      intro h
      split at h <;> split at h <;> simp at h

theorem isspace_not_digit {ch : Char} (h : ch.isDigit = true) : isspace ch = false := by
  cases hs : isspace ch with
  | false => rfl
  | true =>
    simp only [isspace, Bool.or_eq_true, decide_eq_true_eq] at hs
    rcases hs with ((((hs | hs) | hs) | hs) | hs) | hs <;>
      (rw [hs] at h; exact absurd h (by decide))

theorem takeWhile_all {α : Type} (q : α → Bool) (l : List α) (h : ∀ x ∈ l, q x = true) :
    l.takeWhile q = l := by
  induction l with
  | nil => rfl
  | cons x r ih =>
    rw [List.takeWhile_cons, h x (List.mem_cons_self _ _),
      ih (fun y hy => h y (List.mem_cons_of_mem _ hy))]
    rfl

/-- On a non-empty string of decimal digits that fits an `int`, `std::stoi`
returns its numeric value. -/
theorem stoi_decimal {text : Str} (hd : isDecimal text)
    (hfit : (digitsValue text : Int) ≤ 2 ^ 31 - 1) :
    stoi text = .ok (digitsValue text : Int) := by
  obtain ⟨hne, hall⟩ := hd
  obtain ⟨x, r, rfl⟩ := List.exists_cons_of_ne_nil hne
  have hx := hall x (List.mem_cons_self _ _)
  have hsp : isspace x = false := isspace_not_digit hx
  have hdrop : (x :: r).dropWhile isspace = x :: r := by
    rw [List.dropWhile_cons, hsp]
    rfl
  have hm : ¬ x = '-' := by
    rintro rfl
    exact absurd hx (by decide)
  have hp : ¬ x = '+' := by
    rintro rfl
    exact absurd hx (by decide)
  have hsign : takeSign (x :: r) = (false, x :: r) := by
    simp only [takeSign, hm, hp, if_false]
  have htake : (x :: r).takeWhile Char.isDigit = x :: r := takeWhile_all _ _ hall
  have h0 : (0 : Int) ≤ (digitsValue (x :: r) : Int) := Int.ofNat_nonneg _
  have hrange : ¬ ((digitsValue (x :: r) : Int) < -2 ^ 31
      ∨ 2 ^ 31 - 1 < (digitsValue (x :: r) : Int)) := by
    omega
  unfold stoi
  simp only [hdrop, hsign, htake, reduceCtorEq, if_false, Bool.false_eq_true, hrange]

/-- C14, counterexample: `12abc` is not a string of decimal digits, yet
`@12abc` takes the numeric branch: the value is 12 and nothing is allocated. -/
theorem C14_counterexample :
    ¬ (∀ ch ∈ "12abc".data, ch.isDigit = true) ∧
    SymbolTable.init.contains "12abc".data = false ∧
    Parser.parse_a SymbolTable.init "@12abc".data
      = .ok ({ type := 'A', value := 12 }, SymbolTable.init) := by
  decide

/-- C14, amended: for every text `t` after `@`, `parse_a` takes the numeric branch
exactly when `std::stoi` converts `t`, that is when `t`, after optional leading
white space and an optional sign, starts with a decimal digit: it then stores
the converted value and leaves the symbol table unchanged, or fails with
`std::out_of_range` when the number does not fit an `int`; a non-empty string
of decimal digits that fits an `int` is converted to its numeric value.  For
every other `t` it returns the stored address when the table contains `t`,
and otherwise allocates a new variable for `t` and returns its address. -/
theorem C14_parse_a_branches (t : SymbolTable) (text : Str) :
    (stoi text = .error .invalid_argument ↔ numericHead text = false) ∧
    (∀ v, stoi text = .ok v →
      Parser.parse_a t ('@' :: text) = .ok ({ type := 'A', value := v }, t)) ∧
    (stoi text = .error .out_of_range →
      Parser.parse_a t ('@' :: text) = .error .out_of_range) ∧
    (isDecimal text → (digitsValue text : Int) ≤ 2 ^ 31 - 1 →
      Parser.parse_a t ('@' :: text)
        = .ok ({ type := 'A', value := (digitsValue text : Int) }, t)) ∧
    (stoi text = .error .invalid_argument →
      (∀ v, lookup t.symbols text = some v →
        Parser.parse_a t ('@' :: text) = .ok ({ type := 'A', value := v }, t)) ∧
      (lookup t.symbols text = none →
        Parser.parse_a t ('@' :: text)
          = .ok ({ type := 'A', value := t.next_variable },
              { symbols := assign t.symbols text t.next_variable
                next_variable := t.next_variable + 1 }))) := by
  have hs : substr ('@' :: text) 1 none = .ok text := substr_one rfl
  exact ⟨stoi_invalid_iff text, fun v hv => parse_a_number hs hv,
    fun hv => parse_a_overflow hs hv,
    fun hd hfit => parse_a_number hs (stoi_decimal hd hfit),
    fun hv => ⟨fun v hk => parse_a_known hs hv hk, fun hk => parse_a_new hs hv hk⟩⟩

/-! ## Predefined symbols and the label pass -/

theorem predefined_lookup : ∀ e ∈ predefined,
    lookup SymbolTable.init.symbols e.1 = some e.2 := by
  decide

/-- The label pass never removes a symbol. -/
theorem clean_lookup_present (x : Str) (file : List Str) :
    ∀ {p p' : Parser} {v : Int}, lookup p.symbolTable.symbols x = some v →
      Parser.clean p file = .ok p' → ∃ v', lookup p'.symbolTable.symbols x = some v' := by
  induction file with
  | nil =>
    intro p p' v hv h
    simp only [Parser.clean, Except.ok.injEq] at h
    subst h
    exact ⟨v, hv⟩
  | cons raw rest ih =>
    intro p p' v hv h
    simp only [Parser.clean] at h
    cases h1 : p.clean_line raw with
    | error e => simp [h1] at h
    | ok p₁ =>
      simp only [h1] at h
      have hl := clean_line_lookup h1 x
      by_cases hd : labelOf raw = some x
      · rw [if_pos hd] at hl
        exact ih hl h
      · rw [if_neg hd, hv] at hl
        exact ih hl h

/-- C16, counterexample: in the program `D=A`, `(SP)` the label pass overwrites
the predefined `SP`, which then maps to 1 instead of 0. -/
theorem C16_counterexample :
    lookup SymbolTable.init.symbols "SP".data = some 0 ∧
    (Parser.clean (Parser.fresh SymbolTable.init) ["D=A".data, "(SP)".data]).map
        (fun p => lookup p.symbolTable.symbols "SP".data)
      = .ok (some 1) := by
  decide

/-- C16, amended: for every source program the label pass ends without
failure, and each predefined symbol is still present in the symbol table
after it; the symbol still maps to its predefined address when no line of the
program declares a label of that name (a label of that name overwrites the
address). -/
theorem C16_predefined_after_labels (file : List Str) (x : Str) (v : Int)
    (hx : (x, v) ∈ predefined) :
    ∃ pc, Parser.clean (Parser.fresh SymbolTable.init) file = .ok pc ∧
      (∃ v', lookup pc.symbolTable.symbols x = some v') ∧
      ((∀ raw ∈ file, labelOf raw ≠ some x) →
        lookup pc.symbolTable.symbols x = some v) := by
  obtain ⟨pc, hpc, -, -⟩ := clean_ok file (Parser.fresh SymbolTable.init)
  have h0 : lookup (Parser.fresh SymbolTable.init).symbolTable.symbols x = some v :=
    predefined_lookup (x, v) hx
  refine ⟨pc, hpc, clean_lookup_present x file h0 hpc, fun hno => ?_⟩
  rw [clean_lookup_of_not_declared x file hno hpc]
  exact h0

/-- C16, witness: after the label pass over `@SCREEN`, `(LOOP)`, `0;JMP` the
symbol `SCREEN` still maps to 16384. -/
theorem C16_predefined_after_labels_witness :
    ∃ pc, Parser.clean (Parser.fresh SymbolTable.init)
        ["@SCREEN".data, "(LOOP)".data, "0;JMP".data] = .ok pc ∧
      (∃ v', lookup pc.symbolTable.symbols "SCREEN".data = some v') ∧
      ((∀ raw ∈ ["@SCREEN".data, "(LOOP)".data, "0;JMP".data],
          labelOf raw ≠ some "SCREEN".data) →
        lookup pc.symbolTable.symbols "SCREEN".data = some 16384) :=
  C16_predefined_after_labels ["@SCREEN".data, "(LOOP)".data, "0;JMP".data]
    "SCREEN".data 16384 (by decide)

/-! ## The symbol of a label line -/

theorem head_filter_of_normalize {raw : Str} {ch : Char}
    (h : (normalize raw).head? = some ch) :
    (raw.filter (fun c => c ≠ ' ')).head? = some ch := by
  unfold normalize at h
  cases hf : raw.filter (fun c => c ≠ ' ') with
  | nil => rw [hf] at h; simp at h
  | cons x r =>
    rw [hf, List.takeWhile_cons] at h
    by_cases hx : decide (x ≠ '/') = true
    · rw [if_pos hx] at h
      exact h
    · rw [if_neg hx] at h
      simp at h

theorem slice_label (line : Str) :
    slice line 1 (subSize line.length 2) = line.tail.dropLast := by
  unfold slice subSize
  by_cases h : 2 ≤ line.length
  · rw [if_pos h]
    simp only [List.drop_one]
    rw [List.dropLast_eq_take, List.length_tail]
    have : line.length - 2 = line.length - 1 - 1 := by omega
    rw [this]
  · rw [if_neg h]
    simp only [List.drop_one]
    cases line with
    | nil => rfl
    | cons x r =>
      cases r with
      | nil => rfl
      | cons y r' => simp at h

theorem betweenParens_closed (mid : Str) : betweenParens ('(' :: mid ++ [')']) = mid := by
  unfold betweenParens
  simp [List.dropWhile]

/-- C18, counterexample: the normalised line `(A)B` begins with `(` and contains
a `)`; the characters between the `(` and the last `)` are `A`, but `clean`
inserts the symbol `A)`. -/
theorem C18_counterexample :
    normalize "(A)B".data = "(A)B".data ∧
    betweenParens "(A)B".data = "A".data ∧
    Parser.clean_line (Parser.fresh SymbolTable.init) "(A)B".data
      = .ok { Parser.fresh SymbolTable.init with
                symbolTable := SymbolTable.init.add "A)".data 0 } := by
  decide

/-- C18, amended: for every normalised line whose first character is `(`, the
symbol that `Parser::clean` inserts, at the current counter, is the line
without its first and its last character; when the line ends with `)` this is
exactly the characters strictly between the leading `(` and the final `)`. -/
theorem C18_label_symbol (p : Parser) (raw : Str)
    (hp : (normalize raw).head? = some '(') :
    p.clean_line raw
      = .ok { p with symbolTable :=
                (p.symbolTable.add (normalize raw).tail.dropLast p.counter) } ∧
    ∀ mid, normalize raw = '(' :: mid ++ [')'] →
      (normalize raw).tail.dropLast = mid ∧ betweenParens (normalize raw) = mid := by
  constructor
  · have h0 : ¬ raw.length = 0 := by
      intro h
      rw [List.length_eq_zero.mp h] at hp
      exact absurd hp (by decide)
    have hf := head_filter_of_normalize hp
    have h1 : ¬ at0 (raw.filter (fun ch => ch ≠ ' ')) = '/' := by
      rw [at0_eq_iff (by decide), hf]
      decide
    have h2 : at0 (normalize raw) = '(' := (at0_eq_iff (by decide)).mpr hp
    rw [clean_line_label p raw h0 h1 h2, slice_label]
  · intro mid hmid
    rw [hmid, betweenParens_closed]
    exact ⟨by simp, rfl⟩

/-- C18, witness: the line ` (LOOP) // top` declares the symbol `LOOP`. -/
theorem C18_label_symbol_witness :
    Parser.clean_line (Parser.fresh SymbolTable.init) " (LOOP) // top".data
      = .ok { Parser.fresh SymbolTable.init with symbolTable :=
                (SymbolTable.init.add (normalize " (LOOP) // top".data).tail.dropLast 0) } ∧
    ∀ mid, normalize " (LOOP) // top".data = '(' :: mid ++ [')'] →
      (normalize " (LOOP) // top".data).tail.dropLast = mid ∧
        betweenParens (normalize " (LOOP) // top".data) = mid :=
  C18_label_symbol (Parser.fresh SymbolTable.init) " (LOOP) // top".data (by decide)

/-! ## Round trip through the inverse tables -/

/-- C15, the code at the failing input: the legal line `D=M;JGT` is parsed with
comp `M;J` and encoded to the 10-character string `1111010001`, which is no
16-bit word; decoding does not give back dest `D`, comp `M`, jump `JGT`. -/
theorem C15_round_trip_full_shape :
    "D".data ∈ destMnemonics ∧ "M".data ∈ compMnemonics ∧ "JGT".data ∈ jumpMnemonics ∧
    Parser.parse_c "D=M;JGT".data
      = .ok { type := 'C', dest := "D".data, comp := "M;J".data, jump := "JGT".data } ∧
    (Code.machine_code Code.init
        { type := 'C', dest := "D".data, comp := "M;J".data, jump := "JGT".data }).map
        Prod.fst = .ok "1111010001".data ∧
    decode "1111010001".data = none ∧
    roundTrip "D=M;JGT".data = none := by
  decide

/-- The round trip holds for the shape `comp`. -/
theorem round_trip_comp : ∀ c ∈ compMnemonics,
    roundTrip c = some { type := 'C', comp := c } := by
  decide

set_option maxRecDepth 8000 in
/-- The round trip holds for the shape `dest=comp`. -/
theorem round_trip_dest_comp :
    ∀ d ∈ destMnemonics.filter (fun d => d ≠ "null".data), ∀ c ∈ compMnemonics,
      roundTrip (d ++ '=' :: c) = some { type := 'C', dest := d, comp := c } := by
  decide

set_option maxRecDepth 8000 in
/-- The round trip holds for the shape `comp;jump`. -/
theorem round_trip_comp_jump :
    ∀ c ∈ compMnemonics, ∀ j ∈ jumpMnemonics.filter (fun j => j ≠ "null".data),
      roundTrip (c ++ ';' :: j) = some { type := 'C', comp := c, jump := j } := by
  decide

/-- The round trip holds for `@n` with `n` a decimal literal below `2^15`. -/
theorem round_trip_a (text : Str) (hd : isDecimal text) (hlt : digitsValue text < 2 ^ 15) :
    roundTrip ('@' :: text) = some { type := 'A', value := (digitsValue text : Int) } := by
  have hs : substr ('@' :: text) 1 none = .ok text := substr_one rfl
  have hfit : (digitsValue text : Int) ≤ 2 ^ 31 - 1 := by
    have : (digitsValue text : Int) < 2 ^ 15 := by exact_mod_cast hlt
    omega
  have hpa := parse_a_number (t := SymbolTable.init) hs (stoi_decimal hd hfit)
  have hat : at0 ('@' :: text) = '@' := rfl
  have hline : Parser.parse_line (Parser.fresh SymbolTable.init) ('@' :: text)
      = .ok { Parser.fresh SymbolTable.init with
                instructions := [{ type := 'A', value := (digitsValue text : Int) }] } := by
    simp only [Parser.parse_line, hat, if_true]
    rw [show (Parser.fresh SymbolTable.init).symbolTable = SymbolTable.init from rfl, hpa]
    rfl
  have hnat : (((digitsValue text : Int) % 2 ^ 64).toNat) = digitsValue text := by
    have h0 : (0 : Int) ≤ (digitsValue text : Int) := Int.ofNat_nonneg _
    rw [Int.emod_eq_of_lt h0 (by omega)]
    exact Int.toNat_ofNat _
  have hmc : Code.machine_code Code.init
      { type := 'A', value := (digitsValue text : Int) }
      = .ok (bitsMSB 16 (digitsValue text), Code.init) := by
    rw [machine_code_a _ _ rfl]
    simp only [hnat]
  have hlen : ¬ (bitsMSB 16 (digitsValue text)).length ≠ 16 := by
    rw [bitsMSB_length]; simp
  have hhead : (bitsMSB 16 (digitsValue text)).take 1 = ['0'] := by
    have : digitsValue text / 2 ^ 15 % 2 = 0 := by
      rw [Nat.div_eq_of_lt hlt]
    simp only [bitsMSB, List.take_succ_cons, List.take_zero, bitChar, this]
    rfl
  have hval : binValue (bitsMSB 16 (digitsValue text)) = digitsValue text := by
    rw [binValue_bitsMSB]
    exact Nat.mod_eq_of_lt (by omega)
  simp only [roundTrip, hline, hmc, decode, hlen, if_false, hhead, if_true, hval]

/-! ## What `Parser::clean` keeps of a line: everything but the spaces -/

end HackAssembler
